import Mathlib

/-!
# Fixed-base ladders and native compression (`plonk::stdlib::group_utils`)

A shallow embedding of `src/barretenberg/waffle/stdlib/group/group_utils.cpp`.

* Base-field arithmetic (`grumpkin::fq`) is the arithmetic of a Mathlib `Field Fq`;
  scalar-field arithmetic (`grumpkin::fr`) is that of a `CommRing Fr`.
* Curve arithmetic, generator derivation, Montgomery conversion and the wNAF
  decomposition live outside this file of the repository; they are the fields of
  `External`, and what is assumed of the curve operations, on the elements that
  encode points of the curve, is `External.Correct`.
* `std::array`s are lists, `for` loops are `forLoop`, `size_t` arithmetic is
  arithmetic modulo `2 ^ 64`.
-/

namespace group_utils

/-! ## Data model -/

/-- The type `grumpkin::g1::affine_element`: a point given by its two coordinates. -/
structure affine_element (Fq : Type) where
  x : Fq
  y : Fq
deriving DecidableEq, Repr

/-- The type `grumpkin::g1::element`: a point in Jacobian coordinates. -/
structure element (Fq : Type) where
  x : Fq
  y : Fq
  z : Fq
deriving DecidableEq, Repr

/-- The struct `fixed_base_ladder`: one window record of a ladder. -/
structure fixed_base_ladder (Fq : Type) where
  one : affine_element Fq
  three : affine_element Fq
  q_x_1 : Fq
  q_x_2 : Fq
  q_y_1 : Fq
  q_y_2 : Fq
deriving DecidableEq, Repr

/-- The zero-initialised state of a static `affine_element`. -/
def affine_element.zero {Fq : Type} [Zero Fq] : affine_element Fq := ⟨0, 0⟩

/-- The zero-initialised state of an `element`. -/
def element.zero {Fq : Type} [Zero Fq] : element Fq := ⟨0, 0, 0⟩

/-- The zero-initialised state of a static `fixed_base_ladder`. -/
def fixed_base_ladder.zero {Fq : Type} [Zero Fq] : fixed_base_ladder Fq :=
  ⟨affine_element.zero, affine_element.zero, 0, 0, 0, 0⟩

/-- Line 13: `num_generators`. -/
def num_generators : Nat := 128

/-- Line 14: `bit_length`. -/
def bit_length : Nat := 256

/-- Line 15: `quad_length = bit_length / 2`. -/
def quad_length : Nat := bit_length / 2

/-- The functions `group_utils.cpp` calls and does not define. -/
structure External (Fq Fr : Type) where
  /-- The call `grumpkin::g1::affine_to_jacobian`. -/
  affine_to_jacobian : affine_element Fq → element Fq
  /-- The call `grumpkin::g1::dbl`. -/
  dbl : element Fq → element Fq
  /-- The call `grumpkin::g1::add`. -/
  add : element Fq → element Fq → element Fq
  /-- The call `grumpkin::g1::normalize`. -/
  normalize : element Fq → element Fq
  /-- The call `grumpkin::g1::batch_normalize`, on the whole buffer it is handed. -/
  batch_normalize : List (element Fq) → List (element Fq)
  /-- The call `grumpkin::g1::group_exponentiation_inner`. -/
  group_exponentiation_inner : affine_element Fq → Fr → element Fq
  /-- The call `grumpkin::g1::derive_generators<n>()`, an array of `n` points. -/
  derive_generators : (n : Nat) → Fin n → affine_element Fq
  /-- The call `grumpkin::fq::from_montgomery_form`, read through `.data`: the limbs. -/
  from_montgomery_form : Fq → List Nat
  /-- The call `barretenberg::wnaf::fixed_wnaf<255, 1, 2>(scalar, wnaf, skew_map,
  point_index)`: the buffer and the flag it leaves behind. -/
  fixed_wnaf : List Nat → List Nat → Bool → Nat → List Nat × Bool

/-- What is assumed of the curve operations, and only on the elements that encode
points of the curve: `valid` holds of those elements (for a curve in Jacobian
coordinates, the triples that satisfy the curve equation) and is kept by doubling and
addition; `pt` reads a valid `element` as a point of an abstract additive group,
`affine` gives the coordinates of a point's normalised representative; on valid
elements doubling and addition are the group's, and normalisation leaves the affine
coordinates in `x` and `y`, as batch normalisation does on a buffer of valid elements.
Nothing is assumed of the operations on other coordinate triples. -/
structure External.Correct {Fq Fr Pt : Type} [AddCommGroup Pt] (ext : External Fq Fr)
    (valid : element Fq → Prop) (pt : element Fq → Pt) (affine : Pt → affine_element Fq) :
    Prop where
  valid_dbl : ∀ a, valid a → valid (ext.dbl a)
  valid_add : ∀ a b, valid a → valid b → valid (ext.add a b)
  pt_dbl : ∀ a, valid a → pt (ext.dbl a) = pt a + pt a
  pt_add : ∀ a b, valid a → valid b → pt (ext.add a b) = pt a + pt b
  normalize_xy : ∀ a, valid a →
    (⟨(ext.normalize a).x, (ext.normalize a).y⟩ : affine_element Fq) = affine (pt a)
  batch_normalize_length : ∀ l, (ext.batch_normalize l).length = l.length
  batch_normalize_xy : ∀ l i d, (∀ a ∈ l, valid a) → i < l.length →
    (⟨((ext.batch_normalize l).getD i d).x, ((ext.batch_normalize l).getD i d).y⟩ :
      affine_element Fq) = affine (pt (l.getD i d))

/-- Modelled from the spec: `grumpkin::fq::batch_invert` is not under `src/`; the
spec has it produce the same results as inverting each element on its own. -/
def batch_invert {Fq : Type} [Field Fq] (coeffs : List Fq) : List Fq :=
  coeffs.map (fun a => a⁻¹)

/-- The loop `for (size_t i = 0; i < n; ++i) body`: the body runs for
`i = 0, ..., n - 1` in that order on the state of the loop. -/
def forLoop {σ : Type} : Nat → (Nat → σ → σ) → σ → σ
  | 0, _, s => s
  | n + 1, body, s => body n (forLoop n body s)

/-! ## `compute_fixed_base_ladder` (lines 44-102) -/

/-- Lines 52-55: the body of the doubling loop, on `(accumulator, ladder_temp)`. -/
def doubling_step {Fq Fr : Type} [Zero Fq] (ext : External Fq Fr) (i : Nat)
    (st : element Fq × List (element Fq)) : element Fq × List (element Fq) :=
  let accumulator := st.1
  let ladder_temp := st.2
  let ladder_temp := ladder_temp.set i accumulator
  let accumulator := ext.dbl accumulator
  let ladder_temp :=
    ladder_temp.set (quad_length + i) (ext.add accumulator (ladder_temp.getD i element.zero))
  let accumulator := ext.dbl accumulator
  (accumulator, ladder_temp)

/-- Lines 59-62: the body of the copy loop, writing entry `quad_length - 1 - i`. -/
def copy_step {Fq : Type} [Zero Fq] (ladder_temp : List (element Fq)) (i : Nat)
    (ladder : List (fixed_base_ladder Fq)) : List (fixed_base_ladder Fq) :=
  let e := ladder.getD (quad_length - 1 - i) fixed_base_ladder.zero
  ladder.set (quad_length - 1 - i)
    { e with
      one := ⟨(ladder_temp.getD i element.zero).x, (ladder_temp.getD i element.zero).y⟩
      three := ⟨(ladder_temp.getD (quad_length + i) element.zero).x,
                (ladder_temp.getD (quad_length + i) element.zero).y⟩ }

/-- Lines 69-93: the body of the coefficient loop, on `(ladder, y_denominators)`. -/
def coefficient_step {Fq : Type} [Field Fq] (eight_inverse : Fq) (i : Nat)
    (st : List (fixed_base_ladder Fq) × List Fq) : List (fixed_base_ladder Fq) × List Fq :=
  let ladder := st.1
  let y_denominators := st.2
  let e := ladder.getD i fixed_base_ladder.zero
  let x_beta := e.one.x
  let x_gamma := e.three.x
  let y_beta := e.one.y
  let y_gamma := e.three.y
  let x_beta_times_nine := x_beta + x_beta
  let x_beta_times_nine := x_beta_times_nine + x_beta_times_nine
  let x_beta_times_nine := x_beta_times_nine + x_beta_times_nine
  let x_beta_times_nine := x_beta_times_nine + x_beta
  let x_alpha_1 := (x_gamma - x_beta) * eight_inverse
  let x_alpha_2 := (x_beta_times_nine - x_gamma) * eight_inverse
  let T0 := x_beta - x_gamma
  let y_denominators := y_denominators.set i ((T0 + T0) + T0)
  let y_alpha_1 := ((y_beta + y_beta) + y_beta) - y_gamma
  let T1 := x_gamma * y_beta
  let T1 := (T1 + T1) + T1
  let y_alpha_2 := x_beta * y_gamma - T1
  (ladder.set i { e with q_x_1 := x_alpha_1, q_x_2 := x_alpha_2,
                         q_y_1 := y_alpha_1, q_y_2 := y_alpha_2 },
   y_denominators)

/-- Lines 98-99: the body of the last loop, scaling the two y-coefficients. -/
def scale_step {Fq : Type} [Field Fq] (y_denominators : List Fq) (i : Nat)
    (ladder : List (fixed_base_ladder Fq)) : List (fixed_base_ladder Fq) :=
  let e := ladder.getD i fixed_base_ladder.zero
  let e := { e with q_y_1 := e.q_y_1 * y_denominators.getD i 0 }
  let e := { e with q_y_2 := e.q_y_2 * y_denominators.getD i 0 }
  ladder.set i e

/-- Lines 44-102: `compute_fixed_base_ladder(generator, ladder)`; the result is the
buffer `ladder` points to when the call returns. The scratch buffer `ladder_temp`
comes from `aligned_alloc`; each of its cells is written before it is read, and it
starts here filled with the accumulator. -/
def compute_fixed_base_ladder {Fq Fr : Type} [Field Fq] (ext : External Fq Fr)
    (generator : affine_element Fq) (ladder : List (fixed_base_ladder Fq)) :
    List (fixed_base_ladder Fq) :=
  let accumulator := ext.affine_to_jacobian generator
  let ladder_temp := List.replicate (quad_length * 2) accumulator
  let ladder_temp := (forLoop quad_length (doubling_step ext) (accumulator, ladder_temp)).2
  let ladder_temp := ext.batch_normalize ladder_temp
  let ladder := forLoop quad_length (copy_step ladder_temp) ladder
  let eight_inverse : Fq := (8 : Fq)⁻¹
  let y_denominators : List Fq := List.replicate quad_length 0
  let st := forLoop quad_length (coefficient_step eight_inverse) (ladder, y_denominators)
  let ladder := st.1
  let y_denominators := batch_invert st.2
  forLoop quad_length (scale_step y_denominators) ladder

/-! ## The tables and `init` (lines 13-41) -/

/-- Lines 16-18: the three static arrays. -/
structure Tables (Fq : Type) where
  generators : List (affine_element Fq)
  ladders : List (List (fixed_base_ladder Fq))
  hash_ladders : List (List (fixed_base_ladder Fq))

/-- A read `table[i][j]` of a two-dimensional array. -/
def get2 {Fq : Type} [Zero Fq] (table : List (List (fixed_base_ladder Fq))) (i j : Nat) :
    fixed_base_ladder Fq :=
  (table.getD i []).getD j fixed_base_ladder.zero

/-- A write `table[i][j] = v` of a two-dimensional array. -/
def set2 {Fq : Type} (table : List (List (fixed_base_ladder Fq))) (i j : Nat)
    (v : fixed_base_ladder Fq) : List (List (fixed_base_ladder Fq)) :=
  table.set i ((table.getD i []).set j v)

/-- Line 22: `first_generator_segment`. -/
def first_generator_segment : Nat := 126

/-- Line 23: `second_generator_segment`. -/
def second_generator_segment : Nat := 2

/-- The static arrays before `init` runs: zero-initialised storage. -/
def zero_table {Fq : Type} [Zero Fq] : List (List (fixed_base_ladder Fq)) :=
  List.replicate num_generators (List.replicate quad_length fixed_base_ladder.zero)

/-- Lines 20-41: `init`, from zero-initialised static storage to the built tables. -/
def init {Fq Fr : Type} [Field Fq] (ext : External Fq Fr) : Tables Fq :=
  let generators := List.ofFn (ext.derive_generators num_generators)
  let ladders : List (List (fixed_base_ladder Fq)) := zero_table
  let hash_ladders : List (List (fixed_base_ladder Fq)) := zero_table
  let ladders := forLoop num_generators (fun i ladders =>
    ladders.set i
      (compute_fixed_base_ladder ext (generators.getD i affine_element.zero)
        (ladders.getD i []))) ladders
  let hash_ladders := forLoop (num_generators / 2) (fun i hash_ladders =>
    let hash_ladders := forLoop first_generator_segment (fun j hash_ladders =>
      set2 hash_ladders i j
        (get2 ladders (i * 2) (j + (quad_length - first_generator_segment)))) hash_ladders
    forLoop second_generator_segment (fun j hash_ladders =>
      set2 hash_ladders i (j + first_generator_segment)
        (get2 ladders (i * 2 + 1) (j + (quad_length - second_generator_segment))))
      hash_ladders) hash_ladders
  { generators := generators, ladders := ladders, hash_ladders := hash_ladders }

/-! ## The accessors (lines 104-147) -/

/-- The modulus of `size_t` arithmetic. -/
def size_t_mod : Nat := 2 ^ 64

/-- Lines 107-119: the window count `n` of `get_ladder`, in `size_t` arithmetic. -/
def get_ladder_n (num_bits : Nat) : Nat :=
  if num_bits == 0 then
    0
  else
    let n := ((num_bits + size_t_mod - 1) % size_t_mod) >>> 1
    if ((n <<< 1) % size_t_mod + 1) % size_t_mod < num_bits then
      (n + 1) % size_t_mod
    else
      n

/-- Lines 127-139: the window count `n` of `get_hash_ladder`, in `size_t` arithmetic. -/
def get_hash_ladder_n (num_bits : Nat) : Nat :=
  if num_bits == 0 then
    0
  else
    let n := ((num_bits + size_t_mod - 1) % size_t_mod) >>> 1
    if ((n <<< 1) % size_t_mod + 1) % size_t_mod < num_bits then
      (n + 1) % size_t_mod
    else
      n

/-- The index expression `quad_length - n - 1` of lines 120 and 140, in `size_t`
arithmetic (`n < 2 ^ 64`). -/
def ladder_offset (n : Nat) : Nat :=
  (((quad_length + size_t_mod - n) % size_t_mod) + size_t_mod - 1) % size_t_mod

/-- The pointer `&table[generator_index][offset]`, read as the entries from there to
the end of row `generator_index`; `none` when the address is not that of an entry of
row `generator_index`. -/
def address_of {Fq : Type} (table : List (List (fixed_base_ladder Fq)))
    (generator_index offset : Nat) : Option (List (fixed_base_ladder Fq)) :=
  if generator_index < num_generators ∧ offset < quad_length then
    some ((table.getD generator_index []).drop offset)
  else
    none

/-- Lines 104-122: `get_ladder`. -/
def get_ladder {Fq : Type} (t : Tables Fq) (generator_index num_bits : Nat) :
    Option (List (fixed_base_ladder Fq)) :=
  let n := get_ladder_n num_bits
  address_of t.ladders generator_index (ladder_offset n)

/-- Lines 124-142: `get_hash_ladder`. -/
def get_hash_ladder {Fq : Type} (t : Tables Fq) (generator_index num_bits : Nat) :
    Option (List (fixed_base_ladder Fq)) :=
  let n := get_hash_ladder_n num_bits
  address_of t.hash_ladders generator_index (ladder_offset n)

/-- Lines 144-147: `get_generator`. -/
def get_generator {Fq : Type} [Zero Fq] (t : Tables Fq) (generator_index : Nat) :
    affine_element Fq :=
  t.generators.getD generator_index affine_element.zero

/-! ## `compress_native` (lines 149-227) -/

/-- Lines 170-185: the body of the loop of `compute_split_scalar`. -/
def split_scalar_step {Fr : Type} [CommRing Fr] (wnafs : List Nat) (i : Nat) (result : Fr) :
    Fr :=
  let three : Fr := 3
  let entry := wnafs.getD i 0
  let prev := result + result
  let prev := prev + prev
  if (entry &&& 0xffffff) == 0 then
    if ((entry >>> 31) &&& 1) == 1 then prev - 1 else prev + 1
  else
    if ((entry >>> 31) &&& 1) == 1 then prev - three else prev + three

/-- Lines 166-188: the lambda `compute_split_scalar(wnafs, range)`. -/
def compute_split_scalar {Fr : Type} [CommRing Fr] (wnafs : List Nat) (range : Nat) : Fr :=
  forLoop range (split_scalar_step wnafs) 0

/-- Lines 151-164: the decomposition of one input, as `compress_native` runs it on a
zeroed 255-cell buffer and a cleared skew flag. -/
def decompose {Fq Fr : Type} (ext : External Fq Fr) (input : Fq) : List Nat × Bool :=
  let skew := false
  let wnafs := List.replicate 255 0
  let converted := ext.from_montgomery_form input
  ext.fixed_wnaf converted wnafs skew 0

/-- Lines 190-201: the four `grumpkin_scalars`, from the two digit buffers and the
two skew flags the decompositions left behind. -/
def grumpkin_scalars {Fr : Type} [CommRing Fr] (left_wnafs : List Nat) (left_skew : Bool)
    (right_wnafs : List Nat) (right_skew : Bool) : List Fr :=
  let grumpkin_scalars : List Fr :=
    [compute_split_scalar left_wnafs 126,
     compute_split_scalar (left_wnafs.drop 126) 2,
     compute_split_scalar right_wnafs 126,
     compute_split_scalar (right_wnafs.drop 126) 2]
  let grumpkin_scalars :=
    if left_skew then grumpkin_scalars.set 1 (grumpkin_scalars.getD 1 0 + 1)
    else grumpkin_scalars
  let grumpkin_scalars :=
    if right_skew then grumpkin_scalars.set 3 (grumpkin_scalars.getD 3 0 + 1)
    else grumpkin_scalars
  grumpkin_scalars

/-- Lines 151-201: the four scalars `compress_native` computes for its two inputs. -/
def compress_native_scalars {Fq Fr : Type} [CommRing Fr] (ext : External Fq Fr)
    (left right : Fq) : List Fr :=
  let l := decompose ext left
  let r := decompose ext right
  grumpkin_scalars l.1 l.2 r.1 r.2

/-- Lines 149-227: `compress_native`, reading the generators of the tables `t`. -/
def compress_native {Fq Fr : Type} [Zero Fq] [CommRing Fr] (ext : External Fq Fr)
    (t : Tables Fq) (left right : Fq) : Fq :=
  let grumpkin_scalars := compress_native_scalars ext left right
  let grumpkin_points : List (affine_element Fq) :=
    [get_generator t 0, get_generator t 1, get_generator t 2, get_generator t 3]
  let result_points : List (element Fq) :=
    [ext.group_exponentiation_inner (grumpkin_points.getD 0 affine_element.zero)
       (grumpkin_scalars.getD 0 0),
     ext.group_exponentiation_inner (grumpkin_points.getD 1 affine_element.zero)
       (grumpkin_scalars.getD 1 0),
     ext.group_exponentiation_inner (grumpkin_points.getD 2 affine_element.zero)
       (grumpkin_scalars.getD 2 0),
     ext.group_exponentiation_inner (grumpkin_points.getD 3 affine_element.zero)
       (grumpkin_scalars.getD 3 0)]
  let hash_output_left :=
    ext.add (result_points.getD 0 element.zero) (result_points.getD 1 element.zero)
  let hash_output_right :=
    ext.add (result_points.getD 2 element.zero) (result_points.getD 3 element.zero)
  let hash_output := ext.add hash_output_left hash_output_right
  let hash_output := ext.normalize hash_output
  hash_output.x

/-! ## Definitions used to state the results

The loop bodies on one entry, the scratch buffer after normalisation, an entry in
closed form, and the two inner loops of `init` on one row. -/

/-- The accumulator at the start of iteration `k`: doubled twice per iteration. -/
def accumulator_at {Fq Fr : Type} (ext : External Fq Fr) (a : element Fq) : Nat → element Fq
  | 0 => a
  | k + 1 => ext.dbl (ext.dbl (accumulator_at ext a k))

/-- Lines 59-62 on one entry: the two points copied out of `ladder_temp`. -/
def with_points {Fq : Type} [Zero Fq] (ladder_temp : List (element Fq)) (i : Nat)
    (e : fixed_base_ladder Fq) : fixed_base_ladder Fq :=
  { e with
    one := ⟨(ladder_temp.getD i element.zero).x, (ladder_temp.getD i element.zero).y⟩
    three := ⟨(ladder_temp.getD (quad_length + i) element.zero).x,
              (ladder_temp.getD (quad_length + i) element.zero).y⟩ }

/-- Lines 69-93 on one entry: the unscaled coefficients. -/
def with_coefficients {Fq : Type} [Field Fq] (eight_inverse : Fq) (e : fixed_base_ladder Fq) :
    fixed_base_ladder Fq :=
  { e with
    q_x_1 := (e.three.x - e.one.x) * eight_inverse
    q_x_2 := ((((e.one.x + e.one.x) + (e.one.x + e.one.x)) +
      ((e.one.x + e.one.x) + (e.one.x + e.one.x))) + e.one.x - e.three.x) * eight_inverse
    q_y_1 := ((e.one.y + e.one.y) + e.one.y) - e.three.y
    q_y_2 := e.one.x * e.three.y -
      ((e.three.x * e.one.y + e.three.x * e.one.y) + e.three.x * e.one.y) }

/-- Lines 82-83 on one entry: the y-denominator. -/
def y_denominator {Fq : Type} [Field Fq] (e : fixed_base_ladder Fq) : Fq :=
  ((e.one.x - e.three.x) + (e.one.x - e.three.x)) + (e.one.x - e.three.x)

/-- Lines 98-99 on one entry: both y-coefficients times `c`. -/
def with_scaled {Fq : Type} [Field Fq] (c : Fq) (e : fixed_base_ladder Fq) :
    fixed_base_ladder Fq :=
  { e with q_y_1 := e.q_y_1 * c, q_y_2 := e.q_y_2 * c }

/-- The buffer `ladder_temp` after the doubling loop and `batch_normalize`. -/
def normalized_temp {Fq Fr : Type} [Zero Fq] (ext : External Fq Fr)
    (generator : affine_element Fq) : List (element Fq) :=
  ext.batch_normalize
    (forLoop quad_length (doubling_step ext)
      (ext.affine_to_jacobian generator,
       List.replicate (quad_length * 2) (ext.affine_to_jacobian generator))).2

/-- The entry the builder leaves for the two points `one` and `three`. -/
def ladder_entry_of {Fq : Type} [Field Fq] (one three : affine_element Fq) :
    fixed_base_ladder Fq :=
  with_scaled (y_denominator (⟨one, three, 0, 0, 0, 0⟩ : fixed_base_ladder Fq))⁻¹
    (with_coefficients (8 : Fq)⁻¹ ⟨one, three, 0, 0, 0, 0⟩)

/-- Lines 30-38 on row `i`: the two inner loops of `init`. -/
def hash_row {Fq : Type} [Zero Fq] (ladders : List (List (fixed_base_ladder Fq))) (i : Nat)
    (row : List (fixed_base_ladder Fq)) : List (fixed_base_ladder Fq) :=
  forLoop second_generator_segment (fun j row =>
      row.set (j + first_generator_segment)
        (get2 ladders (i * 2 + 1) (j + (quad_length - second_generator_segment))))
    (forLoop first_generator_segment (fun j row =>
      row.set j (get2 ladders (i * 2) (j + (quad_length - first_generator_segment)))) row)

/-! ## A small instance: `y² = x³ - 17` over the field with 19 elements

The curve has 13 points, all multiples of `(4, 3)`; an `element` is read as the
index of the multiple it encodes. -/

instance fact_prime_19 : Fact (Nat.Prime 19) := ⟨by norm_num⟩

/-- The multiples `1 * G, ..., 12 * G` of `G = (4, 3)` on `y² = x³ - 17` over `ZMod 19`. -/
def toy_multiples : List (ZMod 19 × ZMod 19) :=
  [(4, 3), (18, 18), (6, 3), (9, 16), (12, 18), (8, 18),
   (8, 1), (12, 1), (9, 3), (6, 16), (18, 1), (4, 16)]

/-- The element encoding `k * G`; the point at infinity is `(0, 1, 0)`. -/
def toy_encode (k : ZMod 13) : element (ZMod 19) :=
  if k.val = 0 then ⟨0, 1, 0⟩
  else ⟨(toy_multiples.getD (k.val - 1) (0, 0)).1, (toy_multiples.getD (k.val - 1) (0, 0)).2, 1⟩

/-- The index `k` of the multiple `k * G` an element encodes (`0` when it encodes none). -/
def toy_pt (e : element (ZMod 19)) : ZMod 13 :=
  if e.z = 0 then 0
  else
    match toy_multiples.indexOf (e.x, e.y) with
    | 12 => 0
    | k => ((k + 1 : Nat) : ZMod 13)

/-- The affine coordinates of `k * G`. -/
def toy_affine (k : ZMod 13) : affine_element (ZMod 19) :=
  ⟨(toy_encode k).x, (toy_encode k).y⟩

/-- The small instance of the external functions. -/
def toy : External (ZMod 19) (ZMod 13) where
  affine_to_jacobian := fun P => ⟨P.x, P.y, 1⟩
  dbl := fun a => toy_encode (toy_pt a + toy_pt a)
  add := fun a b => toy_encode (toy_pt a + toy_pt b)
  normalize := fun a => toy_encode (toy_pt a)
  batch_normalize := fun l => l.map (fun a => toy_encode (toy_pt a))
  group_exponentiation_inner := fun P k => toy_encode (k * toy_pt ⟨P.x, P.y, 1⟩)
  derive_generators := fun _ i => toy_affine ((i.val % 12 + 1 : Nat) : ZMod 13)
  from_montgomery_form := fun a => [a.val, 0, 0, 0]
  fixed_wnaf := fun _ wnaf skew _ => (wnaf, skew)

/-! ## Digits, ladder walks and a wide scalar ring -/

/-- Lines 173-185 on one cell: the signed value the cell adds to four times the
accumulator in `compute_split_scalar`. -/
def digit_value (entry : Nat) : Int :=
  if (entry &&& 0xffffff) == 0 then
    if ((entry >>> 31) &&& 1) == 1 then -1 else 1
  else
    if ((entry >>> 31) &&& 1) == 1 then -3 else 3

/-- The point of a ladder entry that a cell selects: `one` for a cell of magnitude 1,
`three` for a cell of magnitude 3, the magnitude read as `compute_split_scalar`
reads it. -/
def select_point {Fq : Type} (e : fixed_base_ladder Fq) (entry : Nat) : affine_element Fq :=
  if (entry &&& 0xffffff) == 0 then e.one else e.three

/-- One term of a ladder walk: the point selected at position `j`, read as a group
element, negated when the cell carries the sign bit. -/
def walk_term {Fq Fr Pt : Type} [Zero Fq] [AddCommGroup Pt] (ext : External Fq Fr)
    (pt : element Fq → Pt) (row : List (fixed_base_ladder Fq)) (cells : List Nat) (j : Nat) :
    Pt :=
  if ((cells.getD j 0 >>> 31) &&& 1) == 1 then
    -pt (ext.affine_to_jacobian (select_point (row.getD j fixed_base_ladder.zero)
      (cells.getD j 0)))
  else
    pt (ext.affine_to_jacobian (select_point (row.getD j fixed_base_ladder.zero)
      (cells.getD j 0)))

/-- The ladder walk over the first `n` positions of a ladder: the sum of the points the
cells select, position by position. -/
def ladder_walk {Fq Fr Pt : Type} [Zero Fq] [AddCommGroup Pt] (ext : External Fq Fr)
    (pt : element Fq → Pt) (row : List (fixed_base_ladder Fq)) (cells : List Nat) (n : Nat) :
    Pt :=
  ∑ j ∈ Finset.range n, walk_term ext pt row cells j

/-- The order of the Grumpkin group, the modulus of `grumpkin::fr`. -/
def grumpkin_fr_modulus : Nat :=
  21888242871839275222246405745257275088696311157297823662689037894645226208583

/-- The small instance with its scalars in `ZMod grumpkin_fr_modulus` and a
decomposition routine `fixed_wnaf` of one's choice; the curve is still the one with 13
points, and the group exponentiation reads the scalar modulo 13. -/
def wide (fixed_wnaf : List Nat → List Nat → Bool → Nat → List Nat × Bool) :
    External (ZMod 19) (ZMod grumpkin_fr_modulus) where
  affine_to_jacobian := toy.affine_to_jacobian
  dbl := toy.dbl
  add := toy.add
  normalize := toy.normalize
  batch_normalize := toy.batch_normalize
  group_exponentiation_inner := fun P k =>
    toy_encode (((k.val : Nat) : ZMod 13) * toy_pt ⟨P.x, P.y, 1⟩)
  derive_generators := toy.derive_generators
  from_montgomery_form := toy.from_montgomery_form
  fixed_wnaf := fixed_wnaf

instance fact_prime_13 : Fact (Nat.Prime 13) := ⟨by norm_num⟩

/-- A decomposition routine that leaves the buffer and the flag as it finds them. -/
def keep_buffer : List Nat → List Nat → Bool → Nat → List Nat × Bool :=
  fun _ wnaf skew _ => (wnaf, skew)

/-! ## The same curve in Jacobian coordinates

The instance `jac` computes with coordinates only: an `element` `(X, Y, Z)` with
`Z ≠ 0` stands for the affine point `(X / Z², Y / Z³)`, an element with `Z = 0` for
the point at infinity, and doubling, addition and normalisation are the usual formulas
for a curve `y² = x³ + b`. -/

/-- The curve equation in Jacobian coordinates: `Y² = X³ - 17 Z⁶`. -/
def jac_valid (a : element (ZMod 19)) : Prop :=
  a.y ^ 2 = a.x ^ 3 - 17 * a.z ^ 6

instance jac_valid_decidable (a : element (ZMod 19)) : Decidable (jac_valid a) := by
  unfold jac_valid
  infer_instance

/-- Doubling by the coordinate formulas. -/
def jac_dbl (a : element (ZMod 19)) : element (ZMod 19) :=
  let A := a.x ^ 2
  let B := a.y ^ 2
  let C := B ^ 2
  let D := 2 * ((a.x + B) ^ 2 - A - C)
  let E := 3 * A
  let X3 := E ^ 2 - 2 * D
  ⟨X3, E * (D - X3) - 8 * C, 2 * a.y * a.z⟩

/-- Addition by the coordinate formulas: an operand at infinity gives the other one,
equal points are doubled, opposite points give the point at infinity `(1, 1, 0)`. -/
def jac_add (a b : element (ZMod 19)) : element (ZMod 19) :=
  if a.z = 0 then b
  else if b.z = 0 then a
  else
    let U1 := a.x * b.z ^ 2
    let U2 := b.x * a.z ^ 2
    let S1 := a.y * b.z ^ 3
    let S2 := b.y * a.z ^ 3
    if U1 = U2 then
      if S1 = S2 then jac_dbl a else ⟨1, 1, 0⟩
    else
      let H := U2 - U1
      let R := S2 - S1
      let X3 := R ^ 2 - H ^ 3 - 2 * U1 * H ^ 2
      ⟨X3, R * (U1 * H ^ 2 - X3) - S1 * H ^ 3, H * a.z * b.z⟩

/-- Normalisation: `(X / Z², Y / Z³, 1)`, the inverse of `Z` computed as `Z ^ (19 - 2)`,
which is `0` for `Z = 0`. -/
def jac_normalize (a : element (ZMod 19)) : element (ZMod 19) :=
  let z_inv := a.z ^ 17
  ⟨a.x * z_inv ^ 2, a.y * z_inv ^ 3, 1⟩

/-- The index `k` of the multiple `k * G` whose affine coordinates an element
normalises to (`0` when it normalises to none, as the point at infinity does). -/
def jac_pt (a : element (ZMod 19)) : ZMod 13 :=
  match toy_multiples.indexOf ((jac_normalize a).x, (jac_normalize a).y) with
  | 12 => 0
  | k => ((k + 1 : Nat) : ZMod 13)

/-- The affine coordinates of `k * G`; those of the point at infinity are what
`jac_normalize` leaves of it, `(0, 0)`. -/
def jac_affine (k : ZMod 13) : affine_element (ZMod 19) :=
  if k.val = 0 then ⟨0, 0⟩
  else ⟨(toy_multiples.getD (k.val - 1) (0, 0)).1, (toy_multiples.getD (k.val - 1) (0, 0)).2⟩

/-- The multiple `n * a`, by `n` additions to the point at infinity. -/
def jac_mul (a : element (ZMod 19)) : Nat → element (ZMod 19)
  | 0 => ⟨1, 1, 0⟩
  | n + 1 => jac_add (jac_mul a n) a

/-- The instance of the external functions that computes with Jacobian coordinates. -/
def jac : External (ZMod 19) (ZMod 13) where
  affine_to_jacobian := fun P => ⟨P.x, P.y, 1⟩
  dbl := jac_dbl
  add := jac_add
  normalize := jac_normalize
  batch_normalize := fun l => l.map jac_normalize
  group_exponentiation_inner := fun P k => jac_mul ⟨P.x, P.y, 1⟩ k.val
  derive_generators := fun _ i => jac_affine ((i.val % 12 + 1 : Nat) : ZMod 13)
  from_montgomery_form := fun a => [a.val, 0, 0, 0]
  fixed_wnaf := fun _ wnaf skew _ => (wnaf, skew)

/-- Another triple for the same point: `(c² X, c³ Y, c Z)`. -/
def jac_scale (c : ZMod 19) (a : element (ZMod 19)) : element (ZMod 19) :=
  ⟨c ^ 2 * a.x, c ^ 3 * a.y, c * a.z⟩

/-! # Theorems -/

/-! ## Loops and array cells -/

theorem getD_set {α : Type} (l : List α) (i j : Nat) (a d : α) :
    (l.set i a).getD j d = if i = j ∧ i < l.length then a else l.getD j d := by
  simp only [List.getD_eq_getElem?_getD, List.getElem?_set]
  by_cases h : i = j
  · subst h
    by_cases h2 : i < l.length
    · simp [h2]
    · simp [h2, List.getElem?_eq_none (Nat.le_of_not_lt h2)]
  · simp [h]

theorem getD_set_self {α : Type} (l : List α) (i : Nat) (a d : α) (h : i < l.length) :
    (l.set i a).getD i d = a := by
  rw [getD_set, if_pos ⟨rfl, h⟩]

theorem getD_set_ne {α : Type} (l : List α) (i j : Nat) (a d : α) (h : i ≠ j) :
    (l.set i a).getD j d = l.getD j d := by
  rw [getD_set, if_neg (fun h2 => h h2.1)]

/-- A loop whose body rewrites cell `idx i` from that cell's own content: the cells
`idx j` hold `f j` of their old content, every other cell is untouched. -/
theorem forLoop_set_spec {α : Type} (idx : Nat → Nat) (f : Nat → α → α) (d : α) (l : List α)
    (n : Nat) (hinj : ∀ i j, i < n → j < n → idx i = idx j → i = j)
    (hlt : ∀ i, i < n → idx i < l.length) :
    (forLoop n (fun i l => l.set (idx i) (f i (l.getD (idx i) d))) l).length = l.length ∧
    (∀ j, j < n → (forLoop n (fun i l => l.set (idx i) (f i (l.getD (idx i) d))) l).getD (idx j) d
        = f j (l.getD (idx j) d)) ∧
    (∀ m, (∀ j, j < n → idx j ≠ m) →
      (forLoop n (fun i l => l.set (idx i) (f i (l.getD (idx i) d))) l).getD m d = l.getD m d) := by
  induction n with
  | zero => exact ⟨rfl, fun j hj => absurd hj (Nat.not_lt_zero j), fun m _ => rfl⟩
  | succ n ih =>
    obtain ⟨hlen, hin, hout⟩ := ih (fun i j hi hj => hinj i j (by omega) (by omega))
      (fun i hi => hlt i (by omega))
    have hn : idx n < l.length := hlt n (by omega)
    have hfresh : ∀ j, j < n → idx j ≠ idx n := fun j hj h => by
      have := hinj j n (by omega) (by omega) h
      omega
    refine ⟨?_, ?_, ?_⟩
    · simp only [forLoop, List.length_set, hlen]
    · intro j hj
      simp only [forLoop]
      by_cases hjn : j = n
      · subst hjn
        rw [getD_set_self _ _ _ _ (by rw [hlen]; exact hn), hout (idx j) hfresh]
      · have hj2 : j < n := by omega
        rw [getD_set_ne _ _ _ _ _ (fun h => hfresh j hj2 h.symm), hin j hj2]
    · intro m hm
      simp only [forLoop]
      rw [getD_set_ne _ _ _ _ _ (hm n (by omega))]
      exact hout m (fun j hj => hm j (by omega))

/-! ## The doubling loop -/

theorem doubling_loop_spec {Fq Fr : Type} [Zero Fq] (ext : External Fq Fr) (a : element Fq)
    (t : List (element Fq)) (ht : t.length = quad_length * 2) (k : Nat) (hk : k ≤ quad_length) :
    (forLoop k (doubling_step ext) (a, t)).1 = accumulator_at ext a k ∧
    (forLoop k (doubling_step ext) (a, t)).2.length = quad_length * 2 ∧
    (∀ j, j < k →
      (forLoop k (doubling_step ext) (a, t)).2.getD j element.zero = accumulator_at ext a j ∧
      (forLoop k (doubling_step ext) (a, t)).2.getD (quad_length + j) element.zero
        = ext.add (ext.dbl (accumulator_at ext a j)) (accumulator_at ext a j)) := by
  induction k with
  | zero => exact ⟨rfl, ht, fun j hj => absurd hj (Nat.not_lt_zero j)⟩
  | succ k ih =>
    obtain ⟨hacc, hlen, hcells⟩ := ih (by omega)
    have hk1 : k < (forLoop k (doubling_step ext) (a, t)).2.length := by
      rw [hlen]; omega
    have hk2 : quad_length + k <
        ((forLoop k (doubling_step ext) (a, t)).2.set k
          (forLoop k (doubling_step ext) (a, t)).1).length := by
      rw [List.length_set, hlen]; omega
    refine ⟨?_, ?_, ?_⟩
    · simp only [forLoop, doubling_step, accumulator_at, hacc]
    · simp only [forLoop, doubling_step, List.length_set, hlen]
    · intro j hj
      simp only [forLoop, doubling_step]
      by_cases hjk : j = k
      · subst hjk
        constructor
        · rw [getD_set_ne _ _ _ _ _ (by omega), getD_set_self _ _ _ _ hk1, hacc]
        · rw [getD_set_self _ _ _ _ hk2, getD_set_self _ _ _ _ hk1, hacc]
      · have hj2 : j < k := by omega
        obtain ⟨h1, h2⟩ := hcells j hj2
        constructor
        · rw [getD_set_ne _ _ _ _ _ (by omega), getD_set_ne _ _ _ _ _ (by omega), h1]
        · rw [getD_set_ne _ _ _ _ _ (by omega), getD_set_ne _ _ _ _ _ (by omega), h2]

theorem valid_accumulator_at {Fq Fr Pt : Type} [AddCommGroup Pt] (ext : External Fq Fr)
    (valid : element Fq → Prop) (pt : element Fq → Pt) (affine : Pt → affine_element Fq)
    (hc : ext.Correct valid pt affine) (a : element Fq) (ha : valid a) (k : Nat) :
    valid (accumulator_at ext a k) := by
  induction k with
  | zero => exact ha
  | succ k ih => exact hc.valid_dbl _ (hc.valid_dbl _ ih)

theorem pt_accumulator_at {Fq Fr Pt : Type} [AddCommGroup Pt] (ext : External Fq Fr)
    (valid : element Fq → Prop) (pt : element Fq → Pt) (affine : Pt → affine_element Fq)
    (hc : ext.Correct valid pt affine) (a : element Fq) (ha : valid a) (k : Nat) :
    pt (accumulator_at ext a k) = (4 ^ k) • pt a := by
  induction k with
  | zero => simp [accumulator_at]
  | succ k ih =>
    have h4 : ∀ y : Pt, (4 : ℕ) • y = y + y + (y + y) := fun y => by
      rw [show (4 : ℕ) = 2 + 2 from rfl, add_smul, two_smul]
    have hv := valid_accumulator_at ext valid pt affine hc a ha k
    simp only [accumulator_at]
    rw [hc.pt_dbl _ (hc.valid_dbl _ hv), hc.pt_dbl _ hv, ih, pow_succ, mul_comm, mul_smul, h4]

/-! ## The copy, coefficient and scaling loops -/

theorem copy_loop_spec {Fq : Type} [Zero Fq] (ladder_temp : List (element Fq))
    (ladder : List (fixed_base_ladder Fq)) (hl : ladder.length = quad_length) :
    (forLoop quad_length (copy_step ladder_temp) ladder).length = quad_length ∧
    ∀ m, m < quad_length →
      (forLoop quad_length (copy_step ladder_temp) ladder).getD m fixed_base_ladder.zero
        = with_points ladder_temp (quad_length - 1 - m) (ladder.getD m fixed_base_ladder.zero) := by
  have h := forLoop_set_spec (fun i => quad_length - 1 - i) (with_points ladder_temp)
    fixed_base_ladder.zero ladder quad_length
    (fun i j hi hj hij => by simp only at hij; omega)
    (fun i hi => by simp only [hl]; omega)
  refine ⟨h.1.trans hl, fun m hm => ?_⟩
  have h2 := h.2.1 (quad_length - 1 - m) (by omega)
  have hidx : quad_length - 1 - (quad_length - 1 - m) = m := by omega
  simp only [hidx] at h2
  exact h2

theorem coefficient_loop_spec {Fq : Type} [Field Fq] (eight_inverse : Fq)
    (ladder : List (fixed_base_ladder Fq)) (y : List Fq) (hl : ladder.length = quad_length)
    (hy : y.length = quad_length) (k : Nat) (hk : k ≤ quad_length) :
    (forLoop k (coefficient_step eight_inverse) (ladder, y)).1.length = quad_length ∧
    (forLoop k (coefficient_step eight_inverse) (ladder, y)).2.length = quad_length ∧
    (∀ j, j < k →
      (forLoop k (coefficient_step eight_inverse) (ladder, y)).1.getD j fixed_base_ladder.zero
        = with_coefficients eight_inverse (ladder.getD j fixed_base_ladder.zero) ∧
      (forLoop k (coefficient_step eight_inverse) (ladder, y)).2.getD j 0
        = y_denominator (ladder.getD j fixed_base_ladder.zero)) ∧
    (∀ j, k ≤ j →
      (forLoop k (coefficient_step eight_inverse) (ladder, y)).1.getD j fixed_base_ladder.zero
        = ladder.getD j fixed_base_ladder.zero) := by
  induction k with
  | zero => exact ⟨hl, hy, fun j hj => absurd hj (Nat.not_lt_zero j), fun j _ => rfl⟩
  | succ k ih =>
    obtain ⟨hl1, hy1, hdone, hrest⟩ := ih (by omega)
    have hstep : ∀ st : List (fixed_base_ladder Fq) × List Fq,
        coefficient_step eight_inverse k st
          = (st.1.set k (with_coefficients eight_inverse (st.1.getD k fixed_base_ladder.zero)),
             st.2.set k (y_denominator (st.1.getD k fixed_base_ladder.zero))) := fun _ => rfl
    refine ⟨?_, ?_, ?_, ?_⟩
    · simp only [forLoop, hstep, List.length_set, hl1]
    · simp only [forLoop, hstep, List.length_set, hy1]
    · intro j hj
      simp only [forLoop, hstep]
      by_cases hjk : j = k
      · subst hjk
        rw [getD_set_self _ _ _ _ (by rw [hl1]; omega),
          getD_set_self _ _ _ _ (by rw [hy1]; omega), hrest j (le_refl j)]
        exact ⟨rfl, rfl⟩
      · have hj2 : j < k := by omega
        rw [getD_set_ne _ _ _ _ _ (Ne.symm hjk), getD_set_ne _ _ _ _ _ (Ne.symm hjk)]
        exact hdone j hj2
    · intro j hj
      simp only [forLoop, hstep]
      rw [getD_set_ne _ _ _ _ _ (by omega)]
      exact hrest j (by omega)

theorem scale_loop_spec {Fq : Type} [Field Fq] (y : List Fq)
    (ladder : List (fixed_base_ladder Fq)) (hl : ladder.length = quad_length) :
    (forLoop quad_length (scale_step y) ladder).length = quad_length ∧
    ∀ m, m < quad_length →
      (forLoop quad_length (scale_step y) ladder).getD m fixed_base_ladder.zero
        = with_scaled (y.getD m 0) (ladder.getD m fixed_base_ladder.zero) := by
  have h := forLoop_set_spec (fun i => i) (fun i e => with_scaled (y.getD i 0) e)
    fixed_base_ladder.zero ladder quad_length
    (fun i j _ _ hij => hij) (fun i hi => by simp only [hl]; exact hi)
  exact ⟨h.1.trans hl, fun m hm => h.2.1 m hm⟩

theorem getD_batch_invert {Fq : Type} [Field Fq] (y : List Fq) (m : Nat) :
    (batch_invert y).getD m 0 = (y.getD m 0)⁻¹ := by
  simp only [batch_invert, List.getD_eq_getElem?_getD, List.getElem?_map]
  cases y[m]? <;> simp

/-- Every entry of a built ladder, in terms of the normalised scratch buffer: entry
`m` carries the points of window `quad_length - 1 - m` and the coefficients computed
from those two points. -/
theorem compute_fixed_base_ladder_entry {Fq Fr : Type} [Field Fq] (ext : External Fq Fr)
    (generator : affine_element Fq) (ladder : List (fixed_base_ladder Fq))
    (hl : ladder.length = quad_length) (m : Nat) (hm : m < quad_length) :
    (compute_fixed_base_ladder ext generator ladder).getD m fixed_base_ladder.zero
      = with_scaled
          (y_denominator (with_points (normalized_temp ext generator) (quad_length - 1 - m)
            (ladder.getD m fixed_base_ladder.zero)))⁻¹
          (with_coefficients (8 : Fq)⁻¹
            (with_points (normalized_temp ext generator) (quad_length - 1 - m)
              (ladder.getD m fixed_base_ladder.zero))) := by
  obtain ⟨hc1, hc2⟩ := copy_loop_spec (normalized_temp ext generator) ladder hl
  obtain ⟨hk1, _, hk3, _⟩ := coefficient_loop_spec ((8 : Fq)⁻¹)
    (forLoop quad_length (copy_step (normalized_temp ext generator)) ladder)
    (List.replicate quad_length 0) hc1 (List.length_replicate _ _) quad_length (le_refl _)
  obtain ⟨_, hs2⟩ := scale_loop_spec
    (batch_invert (forLoop quad_length (coefficient_step (8 : Fq)⁻¹)
      (forLoop quad_length (copy_step (normalized_temp ext generator)) ladder,
       List.replicate quad_length 0)).2)
    (forLoop quad_length (coefficient_step (8 : Fq)⁻¹)
      (forLoop quad_length (copy_step (normalized_temp ext generator)) ladder,
       List.replicate quad_length 0)).1 hk1
  have h := hs2 m hm
  rw [getD_batch_invert, (hk3 m hm).1, (hk3 m hm).2, hc2 m hm] at h
  exact h

theorem compute_fixed_base_ladder_length {Fq Fr : Type} [Field Fq] (ext : External Fq Fr)
    (generator : affine_element Fq) (ladder : List (fixed_base_ladder Fq))
    (hl : ladder.length = quad_length) :
    (compute_fixed_base_ladder ext generator ladder).length = quad_length := by
  obtain ⟨hc1, _⟩ := copy_loop_spec (normalized_temp ext generator) ladder hl
  obtain ⟨hk1, _, _, _⟩ := coefficient_loop_spec ((8 : Fq)⁻¹)
    (forLoop quad_length (copy_step (normalized_temp ext generator)) ladder)
    (List.replicate quad_length 0) hc1 (List.length_replicate _ _) quad_length (le_refl _)
  exact (scale_loop_spec _ _ hk1).1

/-! ## The points of a ladder -/

/-- The cells of the normalised scratch buffer: cell `i` holds `4 ^ i` times the
generator and cell `quad_length + i` holds `3 * 4 ^ i` times the generator. Every
element the doubling loop leaves in the buffer is valid, the generator being so. -/
theorem normalized_temp_cells {Fq Fr Pt : Type} [Zero Fq] [AddCommGroup Pt]
    (ext : External Fq Fr) (valid : element Fq → Prop) (pt : element Fq → Pt)
    (affine : Pt → affine_element Fq) (hc : ext.Correct valid pt affine)
    (generator : affine_element Fq) (hgen : valid (ext.affine_to_jacobian generator))
    (i : Nat) (hi : i < quad_length) :
    (⟨((normalized_temp ext generator).getD i element.zero).x,
      ((normalized_temp ext generator).getD i element.zero).y⟩ : affine_element Fq)
      = affine ((4 ^ i) • pt (ext.affine_to_jacobian generator)) ∧
    (⟨((normalized_temp ext generator).getD (quad_length + i) element.zero).x,
      ((normalized_temp ext generator).getD (quad_length + i) element.zero).y⟩ :
        affine_element Fq)
      = affine ((3 * 4 ^ i) • pt (ext.affine_to_jacobian generator)) := by
  obtain ⟨_, hlen, hcells⟩ := doubling_loop_spec ext (ext.affine_to_jacobian generator)
    (List.replicate (quad_length * 2) (ext.affine_to_jacobian generator))
    (List.length_replicate _ _) quad_length (le_refl _)
  obtain ⟨h1, h2⟩ := hcells i hi
  have h3 : ∀ y : Pt, (3 : ℕ) • y = y + y + y := fun y => by
    rw [show (3 : ℕ) = 2 + 1 from rfl, add_smul, two_smul, one_smul]
  have hacc : ∀ j, valid (accumulator_at ext (ext.affine_to_jacobian generator) j) :=
    valid_accumulator_at ext valid pt affine hc _ hgen
  have hall : ∀ a ∈ (forLoop quad_length (doubling_step ext)
      (ext.affine_to_jacobian generator,
        List.replicate (quad_length * 2) (ext.affine_to_jacobian generator))).2, valid a := by
    intro a ha
    obtain ⟨n, hn, rfl⟩ := List.getElem_of_mem ha
    rw [hlen] at hn
    rw [← List.getD_eq_getElem _ element.zero]
    by_cases hlt : n < quad_length
    · rw [(hcells n hlt).1]
      exact hacc n
    · have e : n = quad_length + (n - quad_length) := by omega
      rw [e, (hcells (n - quad_length) (by omega)).2]
      exact hc.valid_add _ _ (hc.valid_dbl _ (hacc _)) (hacc _)
  constructor
  · unfold normalized_temp
    rw [hc.batch_normalize_xy _ i element.zero hall (by rw [hlen]; omega), h1,
      pt_accumulator_at ext valid pt affine hc _ hgen]
  · unfold normalized_temp
    rw [hc.batch_normalize_xy _ (quad_length + i) element.zero hall (by rw [hlen]; omega), h2,
      hc.pt_add _ _ (hc.valid_dbl _ (hacc i)) (hacc i), hc.pt_dbl _ (hacc i),
      pt_accumulator_at ext valid pt affine hc _ hgen, mul_smul, h3]

/-! ## The small instance meets `External.Correct` -/

theorem toy_pt_encode : ∀ k : ZMod 13, toy_pt (toy_encode k) = k := by
  decide

/-- The small instance has the group law built in and reads every element as a point,
so every element counts as valid there. -/
theorem toy_correct : toy.Correct (fun _ => True) toy_pt toy_affine where
  valid_dbl := fun _ _ => trivial
  valid_add := fun _ _ _ _ => trivial
  pt_dbl := fun a _ => toy_pt_encode _
  pt_add := fun a b _ _ => toy_pt_encode _
  normalize_xy := fun a _ => rfl
  batch_normalize_length := fun l => List.length_map _ _
  batch_normalize_xy := fun l i d _ hi => by
    simp only [toy, List.getD_eq_getElem?_getD, List.getElem?_map,
      List.getElem?_eq_getElem hi, Option.map_some', Option.getD_some]
    rfl

theorem toy_multiples_on_curve :
    ∀ P ∈ toy_multiples, P.2 ^ 2 = P.1 ^ 3 - 17 := by
  intro P hP
  simp only [toy_multiples, List.mem_cons, List.mem_singleton, List.not_mem_nil, or_false] at hP
  rcases hP with rfl | rfl | rfl | rfl | rfl | rfl | rfl | rfl | rfl | rfl | rfl | rfl <;> decide

/-- The table is the chain `G, 2 * G, ..., 12 * G = -G` of the chord-and-tangent law:
the tangent at `G` meets the curve in `-(2 * G)`, and for `1 < k < 12` the points
`k * G`, `G` and `-((k + 1) * G)` lie on one line. -/
theorem toy_multiples_chain :
    ((-(toy_multiples.getD 1 (0, 0)).2 - 3) * (2 * 3) : ZMod 19)
      = 3 * 4 ^ 2 * ((toy_multiples.getD 1 (0, 0)).1 - 4) ∧
    (∀ k : Fin 10,
      ((4 : ZMod 19) - (toy_multiples.getD (k.val + 1) (0, 0)).1)
          * (-(toy_multiples.getD (k.val + 2) (0, 0)).2
              - (toy_multiples.getD (k.val + 1) (0, 0)).2)
        = (3 - (toy_multiples.getD (k.val + 1) (0, 0)).2)
          * ((toy_multiples.getD (k.val + 2) (0, 0)).1
              - (toy_multiples.getD (k.val + 1) (0, 0)).1)) ∧
    toy_multiples.getD 11 (0, 0) = ((4 : ZMod 19), -3) := by
  decide

/-! ## The instance in Jacobian coordinates meets `External.Correct`

The formulas are homogeneous: rescaling the operands rescales the result, and the point
an element is read as does not change. An element on the curve with `z ≠ 0` is a
rescaling of an entry of the table of multiples, on which the laws are checked by
evaluation. -/

theorem jac_pow_18 : ∀ c : ZMod 19, c ≠ 0 → c ^ 18 = 1 := by decide

theorem jac_normalize_scale (c : ZMod 19) (hc : c ≠ 0) (a : element (ZMod 19)) :
    jac_normalize (jac_scale c a) = jac_normalize a := by
  have h := jac_pow_18 c hc
  unfold jac_normalize jac_scale
  simp only [element.mk.injEq, and_true]
  constructor
  · calc c ^ 2 * a.x * ((c * a.z) ^ 17) ^ 2 = a.x * (a.z ^ 17) ^ 2 * (c ^ 18) ^ 2 := by ring
      _ = a.x * (a.z ^ 17) ^ 2 := by rw [h]; ring
  · calc c ^ 3 * a.y * ((c * a.z) ^ 17) ^ 3 = a.y * (a.z ^ 17) ^ 3 * (c ^ 18) ^ 3 := by ring
      _ = a.y * (a.z ^ 17) ^ 3 := by rw [h]; ring

theorem jac_pt_scale (c : ZMod 19) (hc : c ≠ 0) (a : element (ZMod 19)) :
    jac_pt (jac_scale c a) = jac_pt a := by
  unfold jac_pt
  rw [jac_normalize_scale c hc]

theorem jac_valid_scale (c : ZMod 19) (hc : c ≠ 0) (a : element (ZMod 19)) :
    jac_valid (jac_scale c a) ↔ jac_valid a := by
  unfold jac_valid jac_scale
  simp only
  constructor
  · intro h
    have h2 : c ^ 6 * (a.y ^ 2 - (a.x ^ 3 - 17 * a.z ^ 6)) = 0 := by linear_combination h
    rcases mul_eq_zero.mp h2 with h3 | h3
    · exact absurd (pow_eq_zero_iff (by decide) |>.mp h3) hc
    · exact sub_eq_zero.mp h3
  · intro h
    linear_combination c ^ 6 * h

theorem jac_dbl_scale (c : ZMod 19) (a : element (ZMod 19)) :
    jac_dbl (jac_scale c a) = jac_scale (c ^ 4) (jac_dbl a) := by
  unfold jac_dbl jac_scale
  simp only [element.mk.injEq]
  refine ⟨?_, ?_, ?_⟩ <;> ring

theorem jac_add_scale (c d : ZMod 19) (hc : c ≠ 0) (hd : d ≠ 0) (a b : element (ZMod 19)) :
    ∃ e, e ≠ 0 ∧ jac_add (jac_scale c a) (jac_scale d b) = jac_scale e (jac_add a b) := by
  by_cases ha : a.z = 0
  · refine ⟨d, hd, ?_⟩
    simp [jac_add, jac_scale, ha]
  by_cases hb : b.z = 0
  · refine ⟨c, hc, ?_⟩
    simp [jac_add, jac_scale, ha, hb, hc]
  have hU : (c ^ 2 * a.x * (d * b.z) ^ 2 = d ^ 2 * b.x * (c * a.z) ^ 2)
      ↔ (a.x * b.z ^ 2 = b.x * a.z ^ 2) := by
    constructor
    · intro h
      have h2 : (c * d) ^ 2 * (a.x * b.z ^ 2 - b.x * a.z ^ 2) = 0 := by linear_combination h
      rcases mul_eq_zero.mp h2 with h3 | h3
      · exact absurd (pow_eq_zero_iff (by decide) |>.mp h3) (mul_ne_zero hc hd)
      · exact sub_eq_zero.mp h3
    · intro h
      linear_combination (c * d) ^ 2 * h
  have hS : (c ^ 3 * a.y * (d * b.z) ^ 3 = d ^ 3 * b.y * (c * a.z) ^ 3)
      ↔ (a.y * b.z ^ 3 = b.y * a.z ^ 3) := by
    constructor
    · intro h
      have h2 : (c * d) ^ 3 * (a.y * b.z ^ 3 - b.y * a.z ^ 3) = 0 := by linear_combination h
      rcases mul_eq_zero.mp h2 with h3 | h3
      · exact absurd (pow_eq_zero_iff (by decide) |>.mp h3) (mul_ne_zero hc hd)
      · exact sub_eq_zero.mp h3
    · intro h
      linear_combination (c * d) ^ 3 * h
  have hca : c * a.z ≠ 0 := mul_ne_zero hc ha
  have hdb : d * b.z ≠ 0 := mul_ne_zero hd hb
  by_cases hu : a.x * b.z ^ 2 = b.x * a.z ^ 2
  · by_cases hs : a.y * b.z ^ 3 = b.y * a.z ^ 3
    · refine ⟨c ^ 4, pow_ne_zero 4 hc, ?_⟩
      have e1 : jac_add a b = jac_dbl a := by
        unfold jac_add
        rw [if_neg ha, if_neg hb]
        simp only [hu, hs, if_true]
      have e2 : jac_add (jac_scale c a) (jac_scale d b) = jac_dbl (jac_scale c a) := by
        unfold jac_add
        rw [if_neg (by exact hca), if_neg (by exact hdb)]
        simp only [jac_scale, hU.mpr hu, hS.mpr hs, if_true]
      rw [e1, e2, jac_dbl_scale]
    · refine ⟨1, one_ne_zero, ?_⟩
      have e1 : jac_add a b = ⟨1, 1, 0⟩ := by
        unfold jac_add
        rw [if_neg ha, if_neg hb]
        simp only [hu, hs, if_true, if_false]
      have e2 : jac_add (jac_scale c a) (jac_scale d b) = ⟨1, 1, 0⟩ := by
        unfold jac_add
        rw [if_neg (by exact hca), if_neg (by exact hdb)]
        simp only [jac_scale, hU.mpr hu, mt hS.mp hs, if_true, if_false]
      rw [e1, e2]
      simp [jac_scale]
  · refine ⟨(c * d) ^ 3, pow_ne_zero 3 (mul_ne_zero hc hd), ?_⟩
    have e1 : jac_add a b = ⟨(b.y * a.z ^ 3 - a.y * b.z ^ 3) ^ 2
          - (b.x * a.z ^ 2 - a.x * b.z ^ 2) ^ 3
          - 2 * (a.x * b.z ^ 2) * (b.x * a.z ^ 2 - a.x * b.z ^ 2) ^ 2,
        (b.y * a.z ^ 3 - a.y * b.z ^ 3) * (a.x * b.z ^ 2 * (b.x * a.z ^ 2 - a.x * b.z ^ 2) ^ 2
          - ((b.y * a.z ^ 3 - a.y * b.z ^ 3) ^ 2 - (b.x * a.z ^ 2 - a.x * b.z ^ 2) ^ 3
            - 2 * (a.x * b.z ^ 2) * (b.x * a.z ^ 2 - a.x * b.z ^ 2) ^ 2))
          - a.y * b.z ^ 3 * (b.x * a.z ^ 2 - a.x * b.z ^ 2) ^ 3,
        (b.x * a.z ^ 2 - a.x * b.z ^ 2) * a.z * b.z⟩ := by
      unfold jac_add
      rw [if_neg ha, if_neg hb]
      simp only [hu, if_false]
    have e2 : jac_add (jac_scale c a) (jac_scale d b)
        = jac_scale ((c * d) ^ 3) (jac_add a b) := by
      rw [e1]
      unfold jac_add
      rw [if_neg (by exact hca), if_neg (by exact hdb)]
      simp only [jac_scale, mt hU.mp hu, if_false, element.mk.injEq]
      refine ⟨?_, ?_, ?_⟩ <;> ring
    exact e2

theorem jac_on_curve_table : ∀ x y : ZMod 19, y ^ 2 = x ^ 3 - 17 * 1 ^ 6 →
    ∃ k : ZMod 13, k ≠ 0 ∧ x = (jac_affine k).x ∧ y = (jac_affine k).y := by
  decide

theorem jac_table_dbl : ∀ k : ZMod 13, k ≠ 0 →
    jac_valid (jac_dbl (jac.affine_to_jacobian (jac_affine k))) ∧
    jac_pt (jac_dbl (jac.affine_to_jacobian (jac_affine k))) = k + k := by
  decide

theorem jac_table_add : ∀ i j : ZMod 13, i ≠ 0 → j ≠ 0 →
    jac_valid (jac_add (jac.affine_to_jacobian (jac_affine i))
      (jac.affine_to_jacobian (jac_affine j))) ∧
    jac_pt (jac_add (jac.affine_to_jacobian (jac_affine i))
      (jac.affine_to_jacobian (jac_affine j))) = i + j := by
  decide

theorem jac_table_pt : ∀ k : ZMod 13, k ≠ 0 →
    jac_valid (jac.affine_to_jacobian (jac_affine k)) ∧
    jac_pt (jac.affine_to_jacobian (jac_affine k)) = k ∧
    (⟨(jac_normalize (jac.affine_to_jacobian (jac_affine k))).x,
      (jac_normalize (jac.affine_to_jacobian (jac_affine k))).y⟩ : affine_element (ZMod 19))
      = jac_affine k := by
  decide

theorem jac_pt_infinity (a : element (ZMod 19)) (hz : a.z = 0) : jac_pt a = 0 := by
  have h : jac_normalize a = ⟨0, 0, 1⟩ := by
    unfold jac_normalize
    simp only [hz, element.mk.injEq, and_true]
    constructor <;> simp
  unfold jac_pt
  rw [h]
  decide

theorem jac_normalize_infinity (a : element (ZMod 19)) (hz : a.z = 0) :
    (⟨(jac_normalize a).x, (jac_normalize a).y⟩ : affine_element (ZMod 19)) = jac_affine 0 := by
  have h : jac_normalize a = ⟨0, 0, 1⟩ := by
    unfold jac_normalize
    simp only [hz, element.mk.injEq, and_true]
    constructor <;> simp
  rw [h]
  decide

theorem jac_valid_dbl_infinity : ∀ x y : ZMod 19, jac_valid ⟨x, y, 0⟩ →
    jac_valid (jac_dbl ⟨x, y, 0⟩) := by
  decide

/-- An element on the curve with `z ≠ 0` is a rescaling of an entry of the table. -/
theorem jac_valid_decompose (a : element (ZMod 19)) (hv : jac_valid a) (hz : a.z ≠ 0) :
    ∃ k : ZMod 13, k ≠ 0 ∧ a = jac_scale a.z (jac.affine_to_jacobian (jac_affine k)) := by
  have h18 := jac_pow_18 a.z hz
  have hs : a = jac_scale a.z (jac_normalize a) := by
    unfold jac_scale jac_normalize
    cases a with
    | mk x y z =>
      simp only [element.mk.injEq, mul_one, and_true]
      simp only at h18
      constructor
      · calc x = x * (z ^ 18) ^ 2 := by rw [h18]; ring
          _ = z ^ 2 * (x * (z ^ 17) ^ 2) := by ring
      · calc y = y * (z ^ 18) ^ 3 := by rw [h18]; ring
          _ = z ^ 3 * (y * (z ^ 17) ^ 3) := by ring
  have hn : jac_valid (jac_normalize a) := by
    rw [← jac_valid_scale a.z hz, ← hs]
    exact hv
  obtain ⟨k, hk, hx, hy⟩ := jac_on_curve_table _ _ hn
  refine ⟨k, hk, ?_⟩
  have e : jac_normalize a = jac.affine_to_jacobian (jac_affine k) := by
    show jac_normalize a = ⟨(jac_affine k).x, (jac_affine k).y, 1⟩
    rw [← hx, ← hy]
    rfl
  rw [← e]
  exact hs

theorem jac_correct : jac.Correct jac_valid jac_pt jac_affine where
  valid_dbl := fun a hv => by
    by_cases hz : a.z = 0
    · cases a with
      | mk x y z =>
        simp only at hz
        subst hz
        exact jac_valid_dbl_infinity x y hv
    · obtain ⟨k, hk, e⟩ := jac_valid_decompose a hv hz
      show jac_valid (jac_dbl a)
      rw [e, jac_dbl_scale, jac_valid_scale _ (pow_ne_zero 4 hz)]
      exact (jac_table_dbl k hk).1
  valid_add := fun a b ha hb => by
    show jac_valid (jac_add a b)
    by_cases hza : a.z = 0
    · have e : jac_add a b = b := by unfold jac_add; rw [if_pos hza]
      rw [e]; exact hb
    by_cases hzb : b.z = 0
    · have e : jac_add a b = a := by unfold jac_add; rw [if_neg hza, if_pos hzb]
      rw [e]; exact ha
    obtain ⟨i, hi, ea⟩ := jac_valid_decompose a ha hza
    obtain ⟨j, hj, eb⟩ := jac_valid_decompose b hb hzb
    obtain ⟨e, he, h⟩ := jac_add_scale a.z b.z hza hzb
      (jac.affine_to_jacobian (jac_affine i)) (jac.affine_to_jacobian (jac_affine j))
    rw [ea, eb, h, jac_valid_scale e he]
    exact (jac_table_add i j hi hj).1
  pt_dbl := fun a hv => by
    show jac_pt (jac_dbl a) = jac_pt a + jac_pt a
    by_cases hz : a.z = 0
    · have hz2 : (jac_dbl a).z = 0 := by
        show 2 * a.y * a.z = 0
        rw [hz, mul_zero]
      rw [jac_pt_infinity _ hz2, jac_pt_infinity _ hz, add_zero]
    · obtain ⟨k, hk, e⟩ := jac_valid_decompose a hv hz
      rw [e, jac_dbl_scale, jac_pt_scale _ (pow_ne_zero 4 hz), jac_pt_scale _ hz,
        (jac_table_dbl k hk).2, (jac_table_pt k hk).2.1]
  pt_add := fun a b ha hb => by
    show jac_pt (jac_add a b) = jac_pt a + jac_pt b
    by_cases hza : a.z = 0
    · have e : jac_add a b = b := by unfold jac_add; rw [if_pos hza]
      rw [e, jac_pt_infinity _ hza, zero_add]
    by_cases hzb : b.z = 0
    · have e : jac_add a b = a := by unfold jac_add; rw [if_neg hza, if_pos hzb]
      rw [e, jac_pt_infinity _ hzb, add_zero]
    obtain ⟨i, hi, ea⟩ := jac_valid_decompose a ha hza
    obtain ⟨j, hj, eb⟩ := jac_valid_decompose b hb hzb
    obtain ⟨e, he, h⟩ := jac_add_scale a.z b.z hza hzb
      (jac.affine_to_jacobian (jac_affine i)) (jac.affine_to_jacobian (jac_affine j))
    rw [ea, eb, h, jac_pt_scale e he, jac_pt_scale _ hza, jac_pt_scale _ hzb,
      (jac_table_add i j hi hj).2, (jac_table_pt i hi).2.1, (jac_table_pt j hj).2.1]
  normalize_xy := fun a hv => by
    show (⟨(jac_normalize a).x, (jac_normalize a).y⟩ : affine_element (ZMod 19))
      = jac_affine (jac_pt a)
    by_cases hz : a.z = 0
    · rw [jac_pt_infinity _ hz]
      exact jac_normalize_infinity a hz
    · obtain ⟨k, hk, e⟩ := jac_valid_decompose a hv hz
      rw [e, jac_normalize_scale _ hz, jac_pt_scale _ hz, (jac_table_pt k hk).2.1]
      exact (jac_table_pt k hk).2.2
  batch_normalize_length := fun l => List.length_map _ _
  batch_normalize_xy := fun l i d hl hi => by
    have hv : jac_valid (l.getD i d) := by
      rw [List.getD_eq_getElem _ _ hi]
      exact hl _ (List.getElem_mem hi)
    have hm : (jac.batch_normalize l).getD i d = jac_normalize (l.getD i d) := by
      show (l.map jac_normalize).getD i d = jac_normalize (l.getD i d)
      simp only [List.getD_eq_getElem?_getD, List.getElem?_map,
        List.getElem?_eq_getElem hi, Option.map_some', Option.getD_some]
    rw [hm]
    by_cases hz : (l.getD i d).z = 0
    · rw [jac_pt_infinity _ hz]
      exact jac_normalize_infinity _ hz
    · obtain ⟨k, hk, e⟩ := jac_valid_decompose _ hv hz
      rw [e, jac_normalize_scale _ hz, jac_pt_scale _ hz, (jac_table_pt k hk).2.1]
      exact (jac_table_pt k hk).2.2

theorem jac_mul_spec (a : element (ZMod 19)) (hv : jac_valid a) (n : Nat) :
    jac_valid (jac_mul a n) ∧ jac_pt (jac_mul a n) = n • jac_pt a := by
  induction n with
  | zero =>
    constructor
    · show jac_valid ⟨1, 1, 0⟩
      decide
    · rw [zero_smul]
      exact jac_pt_infinity _ rfl
  | succ n ih =>
    constructor
    · exact jac_correct.valid_add _ _ ih.1 hv
    · show jac_pt (jac_add (jac_mul a n) a) = (n + 1) • jac_pt a
      have h : jac_pt (jac_add (jac_mul a n) a) = jac_pt (jac_mul a n) + jac_pt a :=
        jac_correct.pt_add _ _ ih.1 hv
      rw [h, ih.2, add_smul, one_smul]

theorem jac_exp (P : affine_element (ZMod 19)) (z : Int)
    (hv : jac_valid (jac.affine_to_jacobian P)) :
    jac_valid (jac.group_exponentiation_inner P (z : ZMod 13)) ∧
    jac_pt (jac.group_exponentiation_inner P (z : ZMod 13))
      = z • jac_pt (jac.affine_to_jacobian P) := by
  obtain ⟨h1, h2⟩ := jac_mul_spec (jac.affine_to_jacobian P) hv (z : ZMod 13).val
  refine ⟨h1, ?_⟩
  show jac_pt (jac_mul (jac.affine_to_jacobian P) (z : ZMod 13).val) = _
  rw [h2, nsmul_eq_mul, zsmul_eq_mul, ZMod.natCast_val, ZMod.cast_id]

theorem jac_round :
    ∀ P : ZMod 13, P ≠ 0 → jac_pt (jac.affine_to_jacobian (jac_affine P)) = P :=
  fun P hP => (jac_table_pt P hP).2.1

theorem jac_generators_valid (i : Fin num_generators) :
    jac_valid (jac.affine_to_jacobian (jac.derive_generators num_generators i)) := by
  refine (jac_table_pt _ ?_).1
  revert i
  decide

theorem jac_generator_pts :
    jac_pt (jac.affine_to_jacobian (get_generator (init jac) (2 * 0))) = 1 ∧
    jac_pt (jac.affine_to_jacobian (get_generator (init jac) (2 * 0 + 1))) = 2 := by
  decide

/-! ## Entries in closed form -/

theorem compute_fixed_base_ladder_entry_of {Fq Fr : Type} [Field Fq] (ext : External Fq Fr)
    (generator : affine_element Fq) (ladder : List (fixed_base_ladder Fq))
    (hl : ladder.length = quad_length) (m : Nat) (hm : m < quad_length) :
    (compute_fixed_base_ladder ext generator ladder).getD m fixed_base_ladder.zero
      = ladder_entry_of
          ⟨((normalized_temp ext generator).getD (quad_length - 1 - m) element.zero).x,
           ((normalized_temp ext generator).getD (quad_length - 1 - m) element.zero).y⟩
          ⟨((normalized_temp ext generator).getD
              (quad_length + (quad_length - 1 - m)) element.zero).x,
           ((normalized_temp ext generator).getD
              (quad_length + (quad_length - 1 - m)) element.zero).y⟩ := by
  rw [compute_fixed_base_ladder_entry ext generator ladder hl m hm]
  rfl

/-- With curve operations correct on valid elements and a valid generator, entry `m`
of a built ladder is the entry of the points `4 ^ i * G` and `3 * 4 ^ i * G`, for the
window `i = quad_length - 1 - m`. -/
theorem compute_fixed_base_ladder_entry_correct {Fq Fr Pt : Type} [Field Fq]
    [AddCommGroup Pt] (ext : External Fq Fr) (valid : element Fq → Prop)
    (pt : element Fq → Pt) (affine : Pt → affine_element Fq)
    (hc : ext.Correct valid pt affine) (generator : affine_element Fq)
    (hgen : valid (ext.affine_to_jacobian generator)) (ladder : List (fixed_base_ladder Fq))
    (hl : ladder.length = quad_length) (m : Nat) (hm : m < quad_length) :
    (compute_fixed_base_ladder ext generator ladder).getD m fixed_base_ladder.zero
      = ladder_entry_of
          (affine ((4 ^ (quad_length - 1 - m)) • pt (ext.affine_to_jacobian generator)))
          (affine ((3 * 4 ^ (quad_length - 1 - m)) • pt (ext.affine_to_jacobian generator))) := by
  obtain ⟨h1, h2⟩ := normalized_temp_cells ext valid pt affine hc generator hgen
    (quad_length - 1 - m) (by omega)
  rw [compute_fixed_base_ladder_entry_of ext generator ladder hl m hm, h1, h2]

/-! ## The ladders of `init` -/

theorem init_generators_eq {Fq Fr : Type} [Field Fq] (ext : External Fq Fr) :
    (init ext).generators = List.ofFn (ext.derive_generators num_generators) := by
  unfold init
  rfl

/-- The generator `get_generator` reads at an index below `num_generators` is the
derived one, so it is valid when the derived generators are. -/
theorem get_generator_init_valid {Fq Fr : Type} [Field Fq] (ext : External Fq Fr)
    (valid : element Fq → Prop)
    (hgen : ∀ i : Fin num_generators,
      valid (ext.affine_to_jacobian (ext.derive_generators num_generators i)))
    (g : Nat) (hg : g < num_generators) :
    valid (ext.affine_to_jacobian (get_generator (init ext) g)) := by
  have e : get_generator (init ext) g = ext.derive_generators num_generators ⟨g, hg⟩ := by
    rw [get_generator, init_generators_eq,
      List.getD_eq_getElem _ _ (by rw [List.length_ofFn]; exact hg), List.getElem_ofFn]
  rw [e]
  exact hgen _

theorem init_ladders_eq {Fq Fr : Type} [Field Fq] (ext : External Fq Fr) :
    (init ext).ladders
      = forLoop num_generators (fun i ladders =>
          ladders.set i
            (compute_fixed_base_ladder ext
              ((List.ofFn (ext.derive_generators num_generators)).getD i affine_element.zero)
              (ladders.getD i []))) zero_table := by
  unfold init
  simp only

theorem init_ladders_row {Fq Fr : Type} [Field Fq] (ext : External Fq Fr) (g : Nat)
    (hg : g < num_generators) :
    (init ext).ladders.getD g []
      = compute_fixed_base_ladder ext (get_generator (init ext) g)
          (List.replicate quad_length fixed_base_ladder.zero) := by
  have h := forLoop_set_spec (fun i => i)
    (fun i row => compute_fixed_base_ladder ext
      ((List.ofFn (ext.derive_generators num_generators)).getD i affine_element.zero) row)
    [] (zero_table : List (List (fixed_base_ladder Fq))) num_generators
    (fun i j _ _ hij => hij)
    (fun i hi => by simp only [zero_table, List.length_replicate]; exact hi)
  have h2 := h.2.1 g hg
  have h3 : (zero_table : List (List (fixed_base_ladder Fq))).getD g []
      = List.replicate quad_length fixed_base_ladder.zero := by
    simp only [zero_table, List.getD_eq_getElem?_getD, List.getElem?_replicate, hg, if_true,
      Option.getD_some]
  rw [h3] at h2
  rw [init_ladders_eq, get_generator, init_generators_eq]
  exact h2

theorem init_ladders_length {Fq Fr : Type} [Field Fq] (ext : External Fq Fr) :
    (init ext).ladders.length = num_generators := by
  have h := forLoop_set_spec (fun i => i)
    (fun i row => compute_fixed_base_ladder ext
      ((List.ofFn (ext.derive_generators num_generators)).getD i affine_element.zero) row)
    [] (zero_table : List (List (fixed_base_ladder Fq))) num_generators
    (fun i j _ _ hij => hij)
    (fun i hi => by simp only [zero_table, List.length_replicate]; exact hi)
  rw [init_ladders_eq]
  exact h.1.trans (List.length_replicate _ _)

theorem init_ladders_row_length {Fq Fr : Type} [Field Fq] (ext : External Fq Fr) (g : Nat)
    (hg : g < num_generators) : ((init ext).ladders.getD g []).length = 128 := by
  rw [init_ladders_row ext g hg]
  exact compute_fixed_base_ladder_length ext _ _ (List.length_replicate _ _)

/-- Every entry of every ladder of `init`, in closed form. -/
theorem init_ladders_entry {Fq Fr : Type} [Field Fq] (ext : External Fq Fr) (g m : Nat)
    (hg : g < num_generators) (hm : m < quad_length) :
    get2 (init ext).ladders g m
      = ladder_entry_of
          ⟨((normalized_temp ext (get_generator (init ext) g)).getD
              (quad_length - 1 - m) element.zero).x,
           ((normalized_temp ext (get_generator (init ext) g)).getD
              (quad_length - 1 - m) element.zero).y⟩
          ⟨((normalized_temp ext (get_generator (init ext) g)).getD
              (quad_length + (quad_length - 1 - m)) element.zero).x,
           ((normalized_temp ext (get_generator (init ext) g)).getD
              (quad_length + (quad_length - 1 - m)) element.zero).y⟩ := by
  unfold get2
  rw [init_ladders_row ext g hg]
  exact compute_fixed_base_ladder_entry_of ext _ _ (List.length_replicate _ _) m hm

/-! ## Values of the small instance -/

theorem toy_inv_8 : (8 : ZMod 19)⁻¹ = 12 :=
  inv_eq_of_mul_eq_one_right (by decide)

theorem toy_inv_13 : (13 : ZMod 19)⁻¹ = 3 :=
  inv_eq_of_mul_eq_one_right (by decide)

theorem toy_entry_of :
    ladder_entry_of (⟨4, 3⟩ : affine_element (ZMod 19)) ⟨6, 3⟩
      = ⟨⟨4, 3⟩, ⟨6, 3⟩, 5, 18, 18, 7⟩ := by
  have h : y_denominator (⟨⟨4, 3⟩, ⟨6, 3⟩, 0, 0, 0, 0⟩ : fixed_base_ladder (ZMod 19)) = 13 := by
    decide
  unfold ladder_entry_of
  rw [h, toy_inv_8, toy_inv_13]
  decide

theorem toy_generator_0 : get_generator (init toy) 0 = ⟨4, 3⟩ := by
  decide

/-- The lowest window of a ladder built for `G = (4, 3)` in the small instance:
`G`, `3 * G = (6, 3)` and the four coefficients. -/
theorem toy_built_entry :
    (compute_fixed_base_ladder toy ⟨4, 3⟩
      (List.replicate 128 fixed_base_ladder.zero)).getD 127 fixed_base_ladder.zero
      = ⟨⟨4, 3⟩, ⟨6, 3⟩, 5, 18, 18, 7⟩ := by
  rw [compute_fixed_base_ladder_entry_correct toy (fun _ => True) toy_pt toy_affine toy_correct
      ⟨4, 3⟩ trivial (List.replicate 128 fixed_base_ladder.zero) (List.length_replicate _ _)
      127 (by decide)]
  have h1 : toy_affine ((4 ^ (quad_length - 1 - 127)) • toy_pt (toy.affine_to_jacobian ⟨4, 3⟩))
      = ⟨4, 3⟩ := by decide
  have h2 : toy_affine ((3 * 4 ^ (quad_length - 1 - 127)) •
      toy_pt (toy.affine_to_jacobian ⟨4, 3⟩)) = ⟨6, 3⟩ := by decide
  rw [h1, h2, toy_entry_of]

/-- The lowest window of generator 0 in the tables of the small instance. -/
theorem toy_lowest_entry :
    get2 (init toy).ladders 0 127 = ⟨⟨4, 3⟩, ⟨6, 3⟩, 5, 18, 18, 7⟩ := by
  unfold get2
  rw [init_ladders_row toy 0 (by decide), toy_generator_0]
  exact toy_built_entry

/-- The interpolation the coefficients of an entry satisfy: through the points
`(1, one.x)`, `(9, three.x)` for `x` against the squared digit, and
`y = (q_y_1 * x + q_y_2) * d` at the digits `d = 1` and `d = 3`. -/
theorem ladder_entry_of_interpolation {Fq : Type} [Field Fq] (one three : affine_element Fq)
    (h2 : (2 : Fq) ≠ 0) (h3 : (3 : Fq) ≠ 0) (hx : one.x ≠ three.x) :
    (ladder_entry_of one three).q_x_1 + (ladder_entry_of one three).q_x_2 = one.x ∧
    (ladder_entry_of one three).q_y_1 * one.x + (ladder_entry_of one three).q_y_2 = one.y ∧
    (ladder_entry_of one three).q_x_1 * 9 + (ladder_entry_of one three).q_x_2 = three.x ∧
    ((ladder_entry_of one three).q_y_1 * three.x + (ladder_entry_of one three).q_y_2) * 3
      = three.y := by
  have h8 : (8 : Fq) ≠ 0 := by
    have h : (8 : Fq) = 2 ^ 3 := by norm_num
    rw [h]
    exact pow_ne_zero 3 h2
  have hden : (one.x - three.x) + (one.x - three.x) + (one.x - three.x) ≠ 0 := fun h => by
    have h' : 3 * (one.x - three.x) = 0 := by rw [← h]; ring
    rcases mul_eq_zero.mp h' with h0 | h0
    · exact h3 h0
    · exact hx (sub_eq_zero.mp h0)
  simp only [ladder_entry_of, with_scaled, with_coefficients, y_denominator]
  generalize hD : (one.x - three.x) + (one.x - three.x) + (one.x - three.x) = D at hden
  refine ⟨?_, ?_, ?_, ?_⟩
  · have e : (three.x - one.x) * (8 : Fq)⁻¹ + (one.x + one.x + (one.x + one.x) +
        (one.x + one.x + (one.x + one.x)) + one.x - three.x) * (8 : Fq)⁻¹
        = one.x * (8 * (8 : Fq)⁻¹) := by ring
    rw [e, mul_inv_cancel₀ h8, mul_one]
  · have e : (one.y + one.y + one.y - three.y) * D⁻¹ * one.x +
        (one.x * three.y - (three.x * one.y + three.x * one.y + three.x * one.y)) * D⁻¹
        = one.y * (D * D⁻¹) := by rw [← hD]; ring
    rw [e, mul_inv_cancel₀ hden, mul_one]
  · have e : (three.x - one.x) * (8 : Fq)⁻¹ * 9 + (one.x + one.x + (one.x + one.x) +
        (one.x + one.x + (one.x + one.x)) + one.x - three.x) * (8 : Fq)⁻¹
        = three.x * (8 * (8 : Fq)⁻¹) := by ring
    rw [e, mul_inv_cancel₀ h8, mul_one]
  · have e : ((one.y + one.y + one.y - three.y) * D⁻¹ * three.x +
        (one.x * three.y - (three.x * one.y + three.x * one.y + three.x * one.y)) * D⁻¹) * 3
        = three.y * (D * D⁻¹) := by rw [← hD]; ring
    rw [e, mul_inv_cancel₀ hden, mul_one]

theorem ladder_entry_of_points {Fq : Type} [Field Fq] (one three : affine_element Fq) :
    (ladder_entry_of one three).one = one ∧ (ladder_entry_of one three).three = three :=
  ⟨rfl, rfl⟩

/-! ## The ladder builder: points and coefficients -/

/-- C3: after `compute_fixed_base_ladder(G, ladder)` on a buffer of `quad_length`
entries, for every `i < 128` the entry `127 - i` has `one = affine(4 ^ i * G)` and
`three = affine(3 * 4 ^ i * G)`; the ladder has 128 entries, the last one holds `1 * G`
and `3 * G`, index 0 holds `4 ^ 127 * G`, and in the entry `three` is three times the
point of `one`. The curve operations are assumed correct only on the valid elements
(those that encode points of the curve), and `G` is assumed to convert to one. -/
theorem compute_fixed_base_ladder_points {Fq Fr Pt : Type} [Field Fq] [AddCommGroup Pt]
    (ext : External Fq Fr) (valid : element Fq → Prop) (pt : element Fq → Pt)
    (affine : Pt → affine_element Fq) (hc : ext.Correct valid pt affine)
    (generator : affine_element Fq) (hgen : valid (ext.affine_to_jacobian generator))
    (ladder : List (fixed_base_ladder Fq)) (hl : ladder.length = quad_length)
    (i : Nat) (hi : i < 128) :
    ((compute_fixed_base_ladder ext generator ladder).getD (127 - i) fixed_base_ladder.zero).one
      = affine ((4 ^ i) • pt (ext.affine_to_jacobian generator)) ∧
    ((compute_fixed_base_ladder ext generator ladder).getD (127 - i) fixed_base_ladder.zero).three
      = affine ((3 * 4 ^ i) • pt (ext.affine_to_jacobian generator)) ∧
    (compute_fixed_base_ladder ext generator ladder).length = 128 ∧
    ((compute_fixed_base_ladder ext generator ladder).getD 127 fixed_base_ladder.zero).one
      = affine (pt (ext.affine_to_jacobian generator)) ∧
    ((compute_fixed_base_ladder ext generator ladder).getD 127 fixed_base_ladder.zero).three
      = affine (3 • pt (ext.affine_to_jacobian generator)) ∧
    ((compute_fixed_base_ladder ext generator ladder).getD 0 fixed_base_ladder.zero).one
      = affine ((4 ^ 127) • pt (ext.affine_to_jacobian generator)) ∧
    ∃ P : Pt,
      ((compute_fixed_base_ladder ext generator ladder).getD (127 - i)
        fixed_base_ladder.zero).one = affine P ∧
      ((compute_fixed_base_ladder ext generator ladder).getD (127 - i)
        fixed_base_ladder.zero).three = affine (3 • P) := by
  have hq : quad_length = 128 := rfl
  have key : ∀ j, j < 128 →
      (compute_fixed_base_ladder ext generator ladder).getD (127 - j) fixed_base_ladder.zero
        = ladder_entry_of (affine ((4 ^ j) • pt (ext.affine_to_jacobian generator)))
            (affine ((3 * 4 ^ j) • pt (ext.affine_to_jacobian generator))) := by
    intro j hj
    have h := compute_fixed_base_ladder_entry_correct ext valid pt affine hc generator hgen
      ladder hl (127 - j) (by omega)
    have hidx : quad_length - 1 - (127 - j) = j := by omega
    rw [hidx] at h
    exact h
  have h0 := key 0 (by omega)
  have h127 := key 127 (by omega)
  simp only [Nat.sub_zero, Nat.sub_self, pow_zero, one_smul, mul_one] at h0 h127
  refine ⟨?_, ?_, ?_, ?_, ?_, ?_, ?_⟩
  · rw [key i hi]; rfl
  · rw [key i hi]; rfl
  · rw [compute_fixed_base_ladder_length ext generator ladder hl, hq]
  · rw [h0]; rfl
  · rw [h0]; rfl
  · rw [h127]; rfl
  · refine ⟨(4 ^ i) • pt (ext.affine_to_jacobian generator), ?_, ?_⟩
    · rw [key i hi]; rfl
    · rw [key i hi, mul_smul]; rfl

theorem compute_fixed_base_ladder_points_witness :
    jac.Correct jac_valid jac_pt jac_affine ∧
    jac_valid (jac.affine_to_jacobian ⟨4, 3⟩) ∧
    (List.replicate 128 (fixed_base_ladder.zero : fixed_base_ladder (ZMod 19))).length
      = quad_length ∧ 1 < 128 ∧
    ((compute_fixed_base_ladder jac ⟨4, 3⟩
        (List.replicate 128 fixed_base_ladder.zero)).getD (127 - 1) fixed_base_ladder.zero).one
      = jac_affine ((4 ^ 1) • jac_pt (jac.affine_to_jacobian ⟨4, 3⟩)) :=
  ⟨jac_correct, by decide, List.length_replicate _ _, by decide,
    (compute_fixed_base_ladder_points jac jac_valid jac_pt jac_affine jac_correct ⟨4, 3⟩
      (by decide) (List.replicate 128 fixed_base_ladder.zero) (List.length_replicate _ _) 1
      (by decide)).1⟩

/-- C7: for every entry `m` of a ladder built by `compute_fixed_base_ladder`, with
`one = (x_β, y_β)`, `three = (x_γ, y_γ)` of that same entry and `x_β ≠ x_γ`:
`q_x_1 = (x_γ - x_β) / 8`, `q_x_2 = (9 x_β - x_γ) / 8`,
`q_y_1 = (3 y_β - y_γ) / (3 (x_β - x_γ))` and
`q_y_2 = (x_β y_γ - 3 x_γ y_β) / (3 (x_β - x_γ))`, division being the field inverse. -/
theorem compute_fixed_base_ladder_coefficients {Fq Fr : Type} [Field Fq]
    (ext : External Fq Fr) (generator : affine_element Fq)
    (ladder : List (fixed_base_ladder Fq)) (hl : ladder.length = quad_length)
    (m : Nat) (hm : m < quad_length)
    (_hx : ((compute_fixed_base_ladder ext generator ladder).getD m fixed_base_ladder.zero).one.x
      ≠ ((compute_fixed_base_ladder ext generator ladder).getD m
          fixed_base_ladder.zero).three.x) :
    ((compute_fixed_base_ladder ext generator ladder).getD m fixed_base_ladder.zero).q_x_1
      = (((compute_fixed_base_ladder ext generator ladder).getD m
            fixed_base_ladder.zero).three.x
          - ((compute_fixed_base_ladder ext generator ladder).getD m
            fixed_base_ladder.zero).one.x) / 8 ∧
    ((compute_fixed_base_ladder ext generator ladder).getD m fixed_base_ladder.zero).q_x_2
      = (9 * ((compute_fixed_base_ladder ext generator ladder).getD m
            fixed_base_ladder.zero).one.x
          - ((compute_fixed_base_ladder ext generator ladder).getD m
            fixed_base_ladder.zero).three.x) / 8 ∧
    ((compute_fixed_base_ladder ext generator ladder).getD m fixed_base_ladder.zero).q_y_1
      = (3 * ((compute_fixed_base_ladder ext generator ladder).getD m
            fixed_base_ladder.zero).one.y
          - ((compute_fixed_base_ladder ext generator ladder).getD m
            fixed_base_ladder.zero).three.y)
        / (3 * (((compute_fixed_base_ladder ext generator ladder).getD m
              fixed_base_ladder.zero).one.x
            - ((compute_fixed_base_ladder ext generator ladder).getD m
              fixed_base_ladder.zero).three.x)) ∧
    ((compute_fixed_base_ladder ext generator ladder).getD m fixed_base_ladder.zero).q_y_2
      = (((compute_fixed_base_ladder ext generator ladder).getD m
            fixed_base_ladder.zero).one.x
          * ((compute_fixed_base_ladder ext generator ladder).getD m
            fixed_base_ladder.zero).three.y
          - 3 * ((compute_fixed_base_ladder ext generator ladder).getD m
              fixed_base_ladder.zero).three.x
            * ((compute_fixed_base_ladder ext generator ladder).getD m
              fixed_base_ladder.zero).one.y)
        / (3 * (((compute_fixed_base_ladder ext generator ladder).getD m
              fixed_base_ladder.zero).one.x
            - ((compute_fixed_base_ladder ext generator ladder).getD m
              fixed_base_ladder.zero).three.x)) := by
  rw [compute_fixed_base_ladder_entry_of ext generator ladder hl m hm]
  refine ⟨?_, ?_, ?_, ?_⟩
  · simp only [ladder_entry_of, with_scaled, with_coefficients, div_eq_mul_inv]
  · simp only [ladder_entry_of, with_scaled, with_coefficients, div_eq_mul_inv]
    congr 1; ring
  · simp only [ladder_entry_of, with_scaled, with_coefficients, y_denominator, div_eq_mul_inv]
    congr 2 <;> ring
  · simp only [ladder_entry_of, with_scaled, with_coefficients, y_denominator, div_eq_mul_inv]
    congr 2 <;> ring

theorem compute_fixed_base_ladder_coefficients_witness :
    (List.replicate 128 (fixed_base_ladder.zero : fixed_base_ladder (ZMod 19))).length
      = quad_length ∧ 127 < quad_length ∧
    ((compute_fixed_base_ladder toy ⟨4, 3⟩
        (List.replicate 128 fixed_base_ladder.zero)).getD 127 fixed_base_ladder.zero).one.x
      ≠ ((compute_fixed_base_ladder toy ⟨4, 3⟩
        (List.replicate 128 fixed_base_ladder.zero)).getD 127 fixed_base_ladder.zero).three.x ∧
    ((compute_fixed_base_ladder toy ⟨4, 3⟩
        (List.replicate 128 fixed_base_ladder.zero)).getD 127 fixed_base_ladder.zero).q_x_1
      = (((compute_fixed_base_ladder toy ⟨4, 3⟩
            (List.replicate 128 fixed_base_ladder.zero)).getD 127 fixed_base_ladder.zero).three.x
          - ((compute_fixed_base_ladder toy ⟨4, 3⟩
            (List.replicate 128 fixed_base_ladder.zero)).getD 127 fixed_base_ladder.zero).one.x)
        / 8 :=
  ⟨List.length_replicate _ _, by decide, by rw [toy_built_entry]; decide,
    (compute_fixed_base_ladder_coefficients toy ⟨4, 3⟩
      (List.replicate 128 fixed_base_ladder.zero) (List.length_replicate _ _) 127 (by decide)
      (by rw [toy_built_entry]; decide)).1⟩

/-- C8: for every entry `m` of the ladder of every generator `g` built by `init`
(over a base field in which 2, hence 8, is invertible), `q_x_1 + 1 * q_x_2` is the
x-coordinate of the entry's `one` point. -/
theorem init_ladder_x_at_one {Fq Fr : Type} [Field Fq] (ext : External Fq Fr)
    (h2 : (2 : Fq) ≠ 0) (g m : Nat) (hg : g < num_generators) (hm : m < quad_length) :
    (get2 (init ext).ladders g m).q_x_1 + 1 * (get2 (init ext).ladders g m).q_x_2
      = (get2 (init ext).ladders g m).one.x := by
  have h8 : (8 : Fq) ≠ 0 := by
    have h : (8 : Fq) = 2 ^ 3 := by norm_num
    rw [h]
    exact pow_ne_zero 3 h2
  rw [init_ladders_entry ext g m hg hm]
  simp only [ladder_entry_of, with_scaled, with_coefficients, one_mul]
  generalize ((normalized_temp ext (get_generator (init ext) g)).getD
    (quad_length - 1 - m) element.zero).x = xb
  generalize ((normalized_temp ext (get_generator (init ext) g)).getD
    (quad_length + (quad_length - 1 - m)) element.zero).x = xg
  have e : (xg - xb) * (8 : Fq)⁻¹ + (xb + xb + (xb + xb) + (xb + xb + (xb + xb)) + xb - xg)
      * (8 : Fq)⁻¹ = xb * (8 * (8 : Fq)⁻¹) := by ring
  rw [e, mul_inv_cancel₀ h8, mul_one]

theorem init_ladder_x_at_one_witness :
    (2 : ZMod 19) ≠ 0 ∧ 0 < num_generators ∧ 127 < quad_length ∧
    (get2 (init toy).ladders 0 127).q_x_1 + 1 * (get2 (init toy).ladders 0 127).q_x_2
      = (get2 (init toy).ladders 0 127).one.x :=
  ⟨by decide, by decide, by decide,
    init_ladder_x_at_one toy (by decide) 0 127 (by decide) (by decide)⟩

/-- C9, as stated, fails: in the tables of the small instance, the lowest window of
generator 0 has `q_y_1 + q_y_2 ≠ one.y`, `q_x_1 + 3 * q_x_2 ≠ three.x` and
`q_y_1 + 3 * q_y_2 ≠ three.y`. -/
theorem init_ladder_affine_formula_counterexample :
    (get2 (init toy).ladders 0 127).q_y_1 + (get2 (init toy).ladders 0 127).q_y_2
      ≠ (get2 (init toy).ladders 0 127).one.y ∧
    (get2 (init toy).ladders 0 127).q_x_1 + 3 * (get2 (init toy).ladders 0 127).q_x_2
      ≠ (get2 (init toy).ladders 0 127).three.x ∧
    (get2 (init toy).ladders 0 127).q_y_1 + 3 * (get2 (init toy).ladders 0 127).q_y_2
      ≠ (get2 (init toy).ladders 0 127).three.y := by
  rw [toy_lowest_entry]
  decide

/-- C9, amended: for every entry of the ladder of every generator built by `init`
(2 and 3 invertible, `one.x ≠ three.x`), the coefficients reproduce the selected
point through `x = q_x_1 * d ^ 2 + q_x_2` and `y = (q_y_1 * x + q_y_2) * d`: at
`d = 1`, `q_x_1 + q_x_2 = one.x` and `q_y_1 * one.x + q_y_2 = one.y`; at `d = 3`,
`q_x_1 * 9 + q_x_2 = three.x` and `(q_y_1 * three.x + q_y_2) * 3 = three.y`. -/
theorem init_ladder_interpolation {Fq Fr : Type} [Field Fq] (ext : External Fq Fr)
    (h2 : (2 : Fq) ≠ 0) (h3 : (3 : Fq) ≠ 0) (g m : Nat) (hg : g < num_generators)
    (hm : m < quad_length)
    (hx : (get2 (init ext).ladders g m).one.x ≠ (get2 (init ext).ladders g m).three.x) :
    (get2 (init ext).ladders g m).q_x_1 + (get2 (init ext).ladders g m).q_x_2
      = (get2 (init ext).ladders g m).one.x ∧
    (get2 (init ext).ladders g m).q_y_1 * (get2 (init ext).ladders g m).one.x
        + (get2 (init ext).ladders g m).q_y_2
      = (get2 (init ext).ladders g m).one.y ∧
    (get2 (init ext).ladders g m).q_x_1 * 9 + (get2 (init ext).ladders g m).q_x_2
      = (get2 (init ext).ladders g m).three.x ∧
    ((get2 (init ext).ladders g m).q_y_1 * (get2 (init ext).ladders g m).three.x
        + (get2 (init ext).ladders g m).q_y_2) * 3
      = (get2 (init ext).ladders g m).three.y := by
  rw [init_ladders_entry ext g m hg hm] at hx ⊢
  exact ladder_entry_of_interpolation _ _ h2 h3 hx

theorem init_ladder_interpolation_witness :
    (2 : ZMod 19) ≠ 0 ∧ (3 : ZMod 19) ≠ 0 ∧ 0 < num_generators ∧ 127 < quad_length ∧
    (get2 (init toy).ladders 0 127).one.x ≠ (get2 (init toy).ladders 0 127).three.x ∧
    ((get2 (init toy).ladders 0 127).q_y_1 * (get2 (init toy).ladders 0 127).three.x
        + (get2 (init toy).ladders 0 127).q_y_2) * 3
      = (get2 (init toy).ladders 0 127).three.y :=
  ⟨by decide, by decide, by decide, by decide, by rw [toy_lowest_entry]; decide,
    (init_ladder_interpolation toy (by decide) (by decide) 0 127 (by decide) (by decide)
      (by rw [toy_lowest_entry]; decide)).2.2.2⟩

/-! ## The scalars and the result of `compress_native` -/

/-- The fold reads only the cells below `range`. -/
theorem compute_split_scalar_congr {Fr : Type} [CommRing Fr] (wnafs wnafs2 : List Nat)
    (range : Nat) (h : ∀ i, i < range → wnafs.getD i 0 = wnafs2.getD i 0) :
    (compute_split_scalar wnafs range : Fr) = compute_split_scalar wnafs2 range := by
  unfold compute_split_scalar
  induction range with
  | zero => simp only [forLoop]
  | succ n ih =>
    simp only [forLoop, split_scalar_step]
    rw [ih (fun i hi => h i (by omega)), h n (by omega)]

theorem getD_take_of_lt {α : Type} (l : List α) (n i : Nat) (d : α) (h : i < n) :
    (l.take n).getD i d = l.getD i d := by
  simp only [List.getD_eq_getElem?_getD, List.getElem?_take, h, if_true]

theorem grumpkin_scalars_eq {Fr : Type} [CommRing Fr] (left_wnafs : List Nat)
    (left_skew : Bool) (right_wnafs : List Nat) (right_skew : Bool) :
    (grumpkin_scalars left_wnafs left_skew right_wnafs right_skew : List Fr)
      = [compute_split_scalar (left_wnafs.take 126) 126,
         compute_split_scalar ((left_wnafs.drop 126).take 2) 2 + (if left_skew then 1 else 0),
         compute_split_scalar (right_wnafs.take 126) 126,
         compute_split_scalar ((right_wnafs.drop 126).take 2) 2
           + (if right_skew then 1 else 0)] := by
  have h1 : ∀ w : List Nat, (compute_split_scalar (w.take 126) 126 : Fr)
      = compute_split_scalar w 126 := fun w =>
    compute_split_scalar_congr _ _ _ (fun i hi => getD_take_of_lt w 126 i 0 hi)
  have h2 : ∀ w : List Nat, (compute_split_scalar ((w.drop 126).take 2) 2 : Fr)
      = compute_split_scalar (w.drop 126) 2 := fun w =>
    compute_split_scalar_congr _ _ _ (fun i hi => getD_take_of_lt (w.drop 126) 2 i 0 hi)
  rw [h1, h1, h2, h2]
  cases left_skew <;> cases right_skew <;>
    simp [grumpkin_scalars, List.set]

/-- C1: for every pair of field elements, `compress_native` returns the x-coordinate
of `normalize((left_lo * G0 + left_hi * G1) + (right_lo * G2 + right_hi * G3))`: the
`G`s are `get_generator(0..3)`, each product is the external group exponentiation of
that generator by that segment scalar, the left pair is added first, the right pair
second, and the two partial sums last. -/
theorem compress_native_eq {Fq Fr : Type} [Zero Fq] [CommRing Fr] (ext : External Fq Fr)
    (t : Tables Fq) (left right : Fq) :
    compress_native ext t left right
      = (ext.normalize
          (ext.add
            (ext.add
              (ext.group_exponentiation_inner (get_generator t 0)
                (compute_split_scalar ((decompose ext left).1.take 126) 126))
              (ext.group_exponentiation_inner (get_generator t 1)
                (compute_split_scalar (((decompose ext left).1.drop 126).take 2) 2
                  + (if (decompose ext left).2 then 1 else 0))))
            (ext.add
              (ext.group_exponentiation_inner (get_generator t 2)
                (compute_split_scalar ((decompose ext right).1.take 126) 126))
              (ext.group_exponentiation_inner (get_generator t 3)
                (compute_split_scalar (((decompose ext right).1.drop 126).take 2) 2
                  + (if (decompose ext right).2 then 1 else 0)))))).x := by
  unfold compress_native compress_native_scalars
  simp only [grumpkin_scalars_eq]
  rfl

/-- C2: for every decomposition output (digit buffer `d` and skew flag) of the two
inputs, the scalars `compress_native` uses are `fold(d[0..126))` and
`fold(d[126..128)) + (1 if skew else 0)`, in the order `G0, G1, G2, G3`; whatever the
flags are, the two `segment_lo` scalars are the same, the left flag only enters the
scalar for `G1` and the right flag only the scalar for `G3`. -/
theorem compress_native_scalars_eq {Fq Fr : Type} [CommRing Fr] (ext : External Fq Fr)
    (left right : Fq) (left_wnafs right_wnafs : List Nat)
    (left_skew right_skew other_left_skew other_right_skew : Bool) :
    (compress_native_scalars ext left right : List Fr)
      = [compute_split_scalar ((decompose ext left).1.take 126) 126,
         compute_split_scalar (((decompose ext left).1.drop 126).take 2) 2
           + (if (decompose ext left).2 then 1 else 0),
         compute_split_scalar ((decompose ext right).1.take 126) 126,
         compute_split_scalar (((decompose ext right).1.drop 126).take 2) 2
           + (if (decompose ext right).2 then 1 else 0)] ∧
    (grumpkin_scalars left_wnafs left_skew right_wnafs right_skew : List Fr).getD 0 0
      = (grumpkin_scalars left_wnafs other_left_skew right_wnafs other_right_skew).getD 0 0 ∧
    (grumpkin_scalars left_wnafs left_skew right_wnafs right_skew : List Fr).getD 2 0
      = (grumpkin_scalars left_wnafs other_left_skew right_wnafs other_right_skew).getD 2 0 ∧
    (grumpkin_scalars left_wnafs left_skew right_wnafs right_skew : List Fr).getD 1 0
      = (grumpkin_scalars left_wnafs left_skew right_wnafs other_right_skew).getD 1 0 ∧
    (grumpkin_scalars left_wnafs left_skew right_wnafs right_skew : List Fr).getD 3 0
      = (grumpkin_scalars left_wnafs other_left_skew right_wnafs right_skew).getD 3 0 := by
  refine ⟨?_, ?_, ?_, ?_, ?_⟩
  · unfold compress_native_scalars
    simp only [grumpkin_scalars_eq]
  all_goals
    simp only [grumpkin_scalars_eq]
    rfl

/-! ## The window count of the accessors -/

/-- C6: for every `num_bits` representable in `size_t`, `get_ladder` and
`get_hash_ladder` compute the same window count `n`; it is the least natural number
with `2 n + 1 ≥ num_bits`, that is `ceil((num_bits - 1) / 2)` for `num_bits > 0` and
`0` for `num_bits = 0`; and `(n << 1) + 1` does not overflow. -/
theorem get_ladder_n_spec (num_bits : Nat) (h : num_bits < size_t_mod) :
    get_ladder_n num_bits = get_hash_ladder_n num_bits ∧
    num_bits ≤ 2 * get_ladder_n num_bits + 1 ∧
    (∀ k, num_bits ≤ 2 * k + 1 → get_ladder_n num_bits ≤ k) ∧
    get_ladder_n num_bits = (if num_bits = 0 then 0 else (num_bits - 1 + 1) / 2) ∧
    (((num_bits - 1) >>> 1) <<< 1) + 1 < size_t_mod ∧
    ((num_bits - 1) >>> 1) + 1 < size_t_mod := by
  have hn : get_ladder_n num_bits = (if num_bits = 0 then 0 else (num_bits - 1 + 1) / 2) := by
    unfold get_ladder_n
    unfold size_t_mod at h ⊢
    by_cases h0 : num_bits = 0
    · simp [h0]
    · simp only [beq_iff_eq, h0, if_false, Nat.shiftRight_eq_div_pow, Nat.shiftLeft_eq,
        pow_one]
      split <;> omega
  refine ⟨rfl, ?_, ?_, hn, ?_, ?_⟩
  · rw [hn]; split <;> omega
  · intro k hk; rw [hn]; split <;> omega
  · unfold size_t_mod at h ⊢
    simp only [Nat.shiftRight_eq_div_pow, Nat.shiftLeft_eq, pow_one]
    omega
  · unfold size_t_mod at h ⊢
    simp only [Nat.shiftRight_eq_div_pow, pow_one]
    omega

theorem get_ladder_n_spec_witness :
    255 < size_t_mod ∧ get_ladder_n 255 = get_hash_ladder_n 255 ∧
    255 ≤ 2 * get_ladder_n 255 + 1 :=
  ⟨by decide, (get_ladder_n_spec 255 (by decide)).1, (get_ladder_n_spec 255 (by decide)).2.1⟩

/-! ## The hash ladders of `init` -/

/-- A loop whose body, on buffers of the right length, rewrites cell `idx i` from
that cell's own content. -/
theorem forLoop_cells_spec {α : Type} (body : Nat → List α → List α) (idx : Nat → Nat)
    (f : Nat → α → α) (d : α) (l : List α) (n : Nat)
    (hbody : ∀ i l2, i < n → l2.length = l.length →
      body i l2 = l2.set (idx i) (f i (l2.getD (idx i) d)))
    (hinj : ∀ i j, i < n → j < n → idx i = idx j → i = j)
    (hlt : ∀ i, i < n → idx i < l.length) :
    (forLoop n body l).length = l.length ∧
    (∀ j, j < n → (forLoop n body l).getD (idx j) d = f j (l.getD (idx j) d)) ∧
    (∀ m, (∀ j, j < n → idx j ≠ m) → (forLoop n body l).getD m d = l.getD m d) := by
  have h := forLoop_set_spec idx f d l n hinj hlt
  have e : ∀ k, k ≤ n →
      forLoop k body l = forLoop k (fun i l => l.set (idx i) (f i (l.getD (idx i) d))) l ∧
      (forLoop k body l).length = l.length := by
    intro k
    induction k with
    | zero => intro _; simp only [forLoop, and_self]
    | succ k ih =>
      intro hk
      obtain ⟨h1, h2⟩ := ih (by omega)
      have h3 : forLoop (k + 1) body l
          = forLoop (k + 1) (fun i l => l.set (idx i) (f i (l.getD (idx i) d))) l := by
        simp only [forLoop]
        rw [hbody k _ (by omega) h2, h1]
      refine ⟨h3, ?_⟩
      simp only [forLoop]
      rw [hbody k _ (by omega) h2, List.length_set, h2]
  rw [(e n (le_refl n)).1]
  exact h

theorem set_getD_self {α : Type} (l : List α) (i : Nat) (d : α) (h : i < l.length) :
    l.set i (l.getD i d) = l := by
  apply List.ext_getElem?
  intro j
  simp only [List.getElem?_set, List.getD_eq_getElem?_getD, List.getElem?_eq_getElem h,
    Option.getD_some, h, if_true]
  split
  · next hij => subst hij; rw [List.getElem?_eq_getElem h]
  · rfl

/-- An inner loop of `init` writes constants into one row of the table. -/
theorem forLoop_set2_row {Fq : Type} (table : List (List (fixed_base_ladder Fq))) (i : Nat)
    (hi : i < table.length) (idx : Nat → Nat) (v : Nat → fixed_base_ladder Fq) (n : Nat) :
    forLoop n (fun j table => set2 table i (idx j) (v j)) table
      = table.set i (forLoop n (fun j row => row.set (idx j) (v j)) (table.getD i [])) := by
  induction n with
  | zero =>
    simp only [forLoop]
    exact (set_getD_self table i [] hi).symm
  | succ n ih =>
    simp only [forLoop]
    rw [ih]
    simp only [set2]
    rw [getD_set_self _ _ _ _ hi, List.set_set]

theorem hash_row_spec {Fq : Type} [Zero Fq] (ladders : List (List (fixed_base_ladder Fq)))
    (i : Nat) (row : List (fixed_base_ladder Fq)) (hr : row.length = quad_length) :
    (hash_row ladders i row).length = quad_length ∧
    (∀ j, j < first_generator_segment →
      (hash_row ladders i row).getD j fixed_base_ladder.zero
        = get2 ladders (i * 2) (j + (quad_length - first_generator_segment))) ∧
    (∀ j, j < second_generator_segment →
      (hash_row ladders i row).getD (j + first_generator_segment) fixed_base_ladder.zero
        = get2 ladders (i * 2 + 1) (j + (quad_length - second_generator_segment))) := by
  have hq : quad_length = 128 := rfl
  have hf : first_generator_segment = 126 := rfl
  have hs : second_generator_segment = 2 := rfl
  obtain ⟨a1, a2, _⟩ := forLoop_set_spec (fun j => j)
    (fun j _ => get2 ladders (i * 2) (j + (quad_length - first_generator_segment)))
    fixed_base_ladder.zero row first_generator_segment (fun _ _ _ _ h => h)
    (fun j hj => by beta_reduce; rw [hr, hq]; rw [hf] at hj; omega)
  obtain ⟨b1, b2, b3⟩ := forLoop_set_spec (fun j => j + first_generator_segment)
    (fun j _ => get2 ladders (i * 2 + 1) (j + (quad_length - second_generator_segment)))
    fixed_base_ladder.zero
    (forLoop first_generator_segment (fun j row =>
      row.set j (get2 ladders (i * 2) (j + (quad_length - first_generator_segment)))) row)
    second_generator_segment (fun _ _ _ _ h => by simp only at h; omega)
    (fun j hj => by beta_reduce; rw [a1, hr, hq, hf]; rw [hs] at hj; omega)
  refine ⟨b1.trans (a1.trans hr), fun j hj => ?_, fun j hj => b2 j hj⟩
  have h := b3 j (fun j2 _ => by omega)
  exact h.trans (a2 j hj)

theorem init_hash_ladders_eq {Fq Fr : Type} [Field Fq] (ext : External Fq Fr) :
    (init ext).hash_ladders
      = forLoop (num_generators / 2) (fun i hash_ladders =>
          forLoop second_generator_segment (fun j hash_ladders =>
            set2 hash_ladders i (j + first_generator_segment)
              (get2 (init ext).ladders (i * 2 + 1)
                (j + (quad_length - second_generator_segment))))
            (forLoop first_generator_segment (fun j hash_ladders =>
              set2 hash_ladders i j
                (get2 (init ext).ladders (i * 2)
                  (j + (quad_length - first_generator_segment)))) hash_ladders))
          zero_table := by
  rw [init_ladders_eq]
  unfold init
  simp only

/-- The rows of the hash-ladder table after `init`: rows below `num_generators / 2`
are spliced from two ladders, the others are as they were. -/
theorem init_hash_ladders_rows {Fq Fr : Type} [Field Fq] (ext : External Fq Fr) :
    (init ext).hash_ladders.length = num_generators ∧
    (∀ k, k < num_generators / 2 →
      (init ext).hash_ladders.getD k []
        = hash_row (init ext).ladders k (List.replicate quad_length fixed_base_ladder.zero)) ∧
    (∀ k, num_generators / 2 ≤ k →
      (init ext).hash_ladders.getD k []
        = (zero_table : List (List (fixed_base_ladder Fq))).getD k []) := by
  have hz : (zero_table : List (List (fixed_base_ladder Fq))).length = num_generators :=
    List.length_replicate _ _
  have hn : num_generators = 128 := rfl
  obtain ⟨h1, h2, h3⟩ := forLoop_cells_spec
    (fun i hash_ladders =>
      forLoop second_generator_segment (fun j hash_ladders =>
        set2 hash_ladders i (j + first_generator_segment)
          (get2 (init ext).ladders (i * 2 + 1)
            (j + (quad_length - second_generator_segment))))
        (forLoop first_generator_segment (fun j hash_ladders =>
          set2 hash_ladders i j
            (get2 (init ext).ladders (i * 2)
              (j + (quad_length - first_generator_segment)))) hash_ladders))
    (fun i => i) (fun i row => hash_row (init ext).ladders i row) []
    (zero_table : List (List (fixed_base_ladder Fq))) (num_generators / 2)
    (fun i l2 hi hl2 => by
      have hi2 : i < l2.length := by rw [hl2, hz, hn]; rw [hn] at hi; omega
      have e1 := forLoop_set2_row l2 i hi2 (fun j => j)
        (fun j => get2 (init ext).ladders (i * 2)
          (j + (quad_length - first_generator_segment))) first_generator_segment
      have e2 := forLoop_set2_row
        (l2.set i (forLoop first_generator_segment (fun j row =>
          row.set j (get2 (init ext).ladders (i * 2)
            (j + (quad_length - first_generator_segment)))) (l2.getD i []))) i
        (by rw [List.length_set]; exact hi2) (fun j => j + first_generator_segment)
        (fun j => get2 (init ext).ladders (i * 2 + 1)
          (j + (quad_length - second_generator_segment))) second_generator_segment
      beta_reduce at e1 e2 ⊢
      rw [e1, e2, getD_set_self _ _ _ _ hi2, List.set_set]
      rfl)
    (fun _ _ _ _ h => h)
    (fun i hi => by beta_reduce; rw [hz, hn]; rw [hn] at hi; omega)
  rw [init_hash_ladders_eq]
  refine ⟨h1.trans hz, fun k hk => ?_,
    fun k hk => h3 k (fun j hj => by omega)⟩
  have h4 := h2 k hk
  have h5 : (zero_table : List (List (fixed_base_ladder Fq))).getD k []
      = List.replicate quad_length fixed_base_ladder.zero := by
    have hk2 : k < num_generators := by rw [hn] at hk ⊢; omega
    simp only [zero_table, List.getD_eq_getElem?_getD, List.getElem?_replicate, hk2, if_true,
      Option.getD_some]
  rw [h5] at h4
  exact h4

/-- C4: after `init`, for every pair index `k < 64` the hash ladder `k` has exactly
`128 = 126 + 2` entries, `hash_ladders[k][j] = ladders[2k][j + 2]` for `j < 126` and
`hash_ladders[k][126 + j] = ladders[2k + 1][126 + j]` for `j < 2`. -/
theorem init_hash_ladder_spec {Fq Fr : Type} [Field Fq] (ext : External Fq Fr) (k : Nat)
    (hk : k < 64) :
    ((init ext).hash_ladders.getD k []).length = 126 + 2 ∧
    (∀ j, j < 126 →
      get2 (init ext).hash_ladders k j = get2 (init ext).ladders (2 * k) (j + 2)) ∧
    (∀ j, j < 2 →
      get2 (init ext).hash_ladders k (126 + j)
        = get2 (init ext).ladders (2 * k + 1) (126 + j)) ∧
    ((init ext).ladders.getD (2 * k) []).length = 128 ∧
    ((init ext).ladders.getD (2 * k + 1) []).length = 128 := by
  have hn : num_generators = 128 := rfl
  obtain ⟨_, h2, _⟩ := init_hash_ladders_rows ext
  obtain ⟨r1, r2, r3⟩ := hash_row_spec (init ext).ladders k
    (List.replicate quad_length fixed_base_ladder.zero) (List.length_replicate _ _)
  have hrow := h2 k (by rw [hn]; omega)
  refine ⟨?_, fun j hj => ?_, fun j hj => ?_,
    init_ladders_row_length ext (2 * k) (by rw [hn]; omega),
    init_ladders_row_length ext (2 * k + 1) (by rw [hn]; omega)⟩
  · rw [hrow, r1]; rfl
  · unfold get2 at r2 ⊢
    rw [hrow, r2 j hj, Nat.mul_comm k 2]
    rfl
  · unfold get2 at r3 ⊢
    rw [hrow, Nat.add_comm 126 j, Nat.mul_comm 2 k]
    exact r3 j hj

theorem init_hash_ladder_spec_witness :
    0 < 64 ∧ ((init toy).hash_ladders.getD 0 []).length = 126 + 2 ∧
    (∀ j, j < 126 →
      get2 (init toy).hash_ladders 0 j = get2 (init toy).ladders (2 * 0) (j + 2)) :=
  ⟨by decide, (init_hash_ladder_spec toy 0 (by decide)).1,
    (init_hash_ladder_spec toy 0 (by decide)).2.1⟩

/-! ## The suffix `get_ladder` returns -/

theorem get_ladder_n_eq (num_bits : Nat) (h : num_bits < size_t_mod) :
    get_ladder_n num_bits = (num_bits - 1 + 1) / 2 ∨ (num_bits = 0 ∧ get_ladder_n num_bits = 0) := by
  unfold get_ladder_n
  unfold size_t_mod at h ⊢
  by_cases h0 : num_bits = 0
  · right; simp [h0]
  · left
    simp only [beq_iff_eq, h0, if_false, Nat.shiftRight_eq_div_pow, Nat.shiftLeft_eq, pow_one]
    split <;> omega

theorem ladder_offset_eq (n : Nat) (h : n < quad_length) :
    ladder_offset n = quad_length - n - 1 := by
  unfold ladder_offset size_t_mod
  have hq : quad_length = 128 := rfl
  rw [hq] at h ⊢
  omega

theorem drop_suffix_drop {α : Type} (l : List α) (a b : Nat) (h : b ≤ a) :
    l.drop a <:+ l.drop b := by
  have e : l.drop a = (l.drop b).drop (a - b) := by
    rw [List.drop_drop]
    congr 1
    omega
  rw [e]
  exact List.drop_suffix _ _

/-- The value of `get_ladder` on the tables of `init`, for `num_bits ≤ 255`. -/
theorem get_ladder_init {Fq Fr : Type} [Field Fq] (ext : External Fq Fr) (g : Nat)
    (hg : g < num_generators) (num_bits : Nat) (hb : num_bits ≤ 255) :
    get_ladder_n num_bits < quad_length ∧
    get_ladder (init ext) g num_bits
      = some (((init ext).ladders.getD g []).drop (quad_length - get_ladder_n num_bits - 1)) := by
  have hq : quad_length = 128 := rfl
  have hlt : get_ladder_n num_bits < quad_length := by
    rcases get_ladder_n_eq num_bits (by unfold size_t_mod; omega) with h | ⟨_, h⟩ <;>
      rw [h, hq] <;> omega
  refine ⟨hlt, ?_⟩
  unfold get_ladder address_of
  simp only [ladder_offset_eq _ hlt]
  rw [if_pos ⟨hg, by rw [hq] at hlt ⊢; omega⟩]

/-- C5, as stated, fails at `num_bits = 256`: the window count is 128, the offset
`quad_length - n - 1` wraps to `2 ^ 64 - 1`, the address is outside the 128-entry
ladder, and no suffix of `ceil(255 / 2) + 1` entries is returned. -/
theorem get_ladder_256_counterexample :
    get_ladder_n 256 = 128 ∧ ladder_offset (get_ladder_n 256) = 2 ^ 64 - 1 ∧
    get_ladder (init toy) 0 256 = none ∧
    ¬ ∃ l, get_ladder (init toy) 0 256 = some l ∧ l <:+ (init toy).ladders.getD 0 [] ∧
      l.length = (256 - 1 + 1) / 2 + 1 := by
  have h1 : get_ladder_n 256 = 128 := by decide
  have h2 : ladder_offset 128 = 2 ^ 64 - 1 := by decide
  have h3 : get_ladder (init toy) 0 256 = none := by
    unfold get_ladder address_of
    simp only [h1, h2]
    rw [if_neg (fun h => absurd h.2 (by decide))]
  refine ⟨h1, by rw [h1]; exact h2, h3, ?_⟩
  rintro ⟨l, hl, _⟩
  rw [h3] at hl
  exact Option.noConfusion hl

/-- C5, amended: for every generator index `g < 128` and every `num_bits ≤ 255`,
`get_ladder(g, num_bits)` is the suffix of generator `g`'s 128-entry ladder that
starts at offset `quad_length - n - 1`; its length is `ceil((num_bits - 1) / 2) + 1`
for `num_bits > 0` and 1 for `num_bits = 0`; and for `a ≤ num_bits` the result for
`a` is a suffix of the result for `num_bits`. -/
theorem get_ladder_suffix {Fq Fr : Type} [Field Fq] (ext : External Fq Fr) (g : Nat)
    (hg : g < 128) (num_bits : Nat) (hb : num_bits ≤ 255) :
    ((init ext).ladders.getD g []).length = 128 ∧
    get_ladder (init ext) g num_bits
      = some (((init ext).ladders.getD g []).drop (quad_length - get_ladder_n num_bits - 1)) ∧
    ((init ext).ladders.getD g []).drop (quad_length - get_ladder_n num_bits - 1)
      <:+ (init ext).ladders.getD g [] ∧
    (((init ext).ladders.getD g []).drop (quad_length - get_ladder_n num_bits - 1)).length
      = (if num_bits = 0 then 1 else (num_bits - 1 + 1) / 2 + 1) ∧
    (∀ a, a ≤ num_bits → ∃ la lb,
      get_ladder (init ext) g a = some la ∧ get_ladder (init ext) g num_bits = some lb ∧
      la <:+ lb) := by
  have hq : quad_length = 128 := rfl
  have hlen := init_ladders_row_length ext g hg
  obtain ⟨hn, hget⟩ := get_ladder_init ext g hg num_bits hb
  refine ⟨hlen, hget, List.drop_suffix _ _, ?_, ?_⟩
  · rw [List.length_drop, hlen]
    rcases get_ladder_n_eq num_bits (by unfold size_t_mod; omega) with h | ⟨h0, h⟩
    · rw [h, hq]; split <;> omega
    · rw [h, hq, if_pos h0]
  · intro a ha
    obtain ⟨hna, hgeta⟩ := get_ladder_init ext g hg a (by omega)
    refine ⟨_, _, hgeta, hget, drop_suffix_drop _ _ _ ?_⟩
    have hmono : get_ladder_n a ≤ get_ladder_n num_bits := by
      rcases get_ladder_n_eq a (by unfold size_t_mod; omega) with h | ⟨_, h⟩ <;>
        rcases get_ladder_n_eq num_bits (by unfold size_t_mod; omega) with h2 | ⟨_, h2⟩ <;>
        rw [h, h2] <;> omega
    omega

theorem get_ladder_suffix_witness :
    3 < 128 ∧ 254 ≤ 255 ∧ ((init toy).ladders.getD 3 []).length = 128 ∧
    get_ladder (init toy) 3 254
      = some (((init toy).ladders.getD 3 []).drop (quad_length - get_ladder_n 254 - 1)) :=
  ⟨by decide, by decide, (get_ladder_suffix toy 3 (by decide) 254 (by decide)).1,
    (get_ladder_suffix toy 3 (by decide) 254 (by decide)).2.1⟩

/-! ## The fold of `compute_split_scalar` -/

theorem land_low24 (entry : Nat) : entry &&& 0xffffff = entry % 2 ^ 24 :=
  Nat.and_pow_two_sub_one_eq_mod entry 24

theorem sign_bit_eq (entry : Nat) :
    (((entry >>> 31) &&& 1) == 1) = entry.testBit 31 := by
  rw [Nat.and_one_is_mod, Nat.shiftRight_eq_div_pow, Nat.testBit_to_div_mod]
  by_cases h : entry / 2 ^ 31 % 2 = 1
  · rw [decide_eq_true h, beq_iff_eq]
    exact h
  · rw [decide_eq_false h, beq_eq_false_iff_ne]
    exact h

theorem digit_value_cases (entry : Nat) :
    digit_value entry = 1 ∨ digit_value entry = -1 ∨ digit_value entry = 3 ∨
      digit_value entry = -3 := by
  unfold digit_value
  split <;> split <;> simp

/-- One step of the fold is four times the accumulator plus the value of the cell. -/
theorem split_scalar_step_eq {Fr : Type} [CommRing Fr] (wnafs : List Nat) (i : Nat)
    (result : Fr) :
    split_scalar_step wnafs i result = 4 * result + ((digit_value (wnafs.getD i 0) : Int) : Fr) := by
  by_cases h1 : ((wnafs.getD i 0 &&& 0xffffff) == 0) = true <;>
    by_cases h2 : (((wnafs.getD i 0 >>> 31) &&& 1) == 1) = true <;>
    simp only [split_scalar_step, digit_value, h1, h2, if_true, if_false] <;>
    push_cast <;> ring

/-- The fold as a sum: cell `i` of `range` cells weighs `4 ^ (range - 1 - i)`. -/
theorem compute_split_scalar_sum {Fr : Type} [CommRing Fr] (wnafs : List Nat) (range : Nat) :
    (compute_split_scalar wnafs range : Fr)
      = ∑ i ∈ Finset.range range,
          ((digit_value (wnafs.getD i 0) : Int) : Fr) * 4 ^ (range - 1 - i) := by
  unfold compute_split_scalar
  induction range with
  | zero => simp only [forLoop, Finset.range_zero, Finset.sum_empty]
  | succ n ih =>
    simp only [forLoop]
    rw [split_scalar_step_eq, ih, Finset.sum_range_succ, Finset.mul_sum]
    congr 1
    · apply Finset.sum_congr rfl
      intro i hi
      have hi2 : i < n := Finset.mem_range.mp hi
      have e : n + 1 - 1 - i = (n - 1 - i) + 1 := by omega
      rw [e, pow_succ]
      ring
    · have e : n + 1 - 1 - n = 0 := by omega
      rw [e, pow_zero, mul_one]

/-- The fold in any scalar ring is the image of the fold over the integers. -/
theorem compute_split_scalar_cast {Fr : Type} [CommRing Fr] (wnafs : List Nat) (range : Nat) :
    (compute_split_scalar wnafs range : Fr)
      = (((compute_split_scalar wnafs range : Int)) : Fr) := by
  rw [compute_split_scalar_sum, compute_split_scalar_sum]
  push_cast
  rfl

/-- Over the integers the fold of `range` cells is odd when `range > 0` and its
absolute value is at most `4 ^ range - 1`. -/
theorem compute_split_scalar_int_bound (wnafs : List Nat) (range : Nat) :
    (0 < range → (compute_split_scalar wnafs range : Int) % 2 = 1) ∧
    |(compute_split_scalar wnafs range : Int)| ≤ 4 ^ range - 1 := by
  unfold compute_split_scalar
  induction range with
  | zero => simp [forLoop]
  | succ n ih =>
    simp only [forLoop]
    rw [split_scalar_step_eq]
    obtain ⟨_, hb⟩ := ih
    have hd := digit_value_cases (wnafs.getD n 0)
    have hb2 := abs_le.mp hb
    refine ⟨fun _ => ?_, ?_⟩
    · rcases hd with h | h | h | h <;> rw [h] <;> push_cast <;> omega
    · rw [abs_le, pow_succ]
      rcases hd with h | h | h | h <;> rw [h] <;> push_cast <;> constructor <;> linarith [hb2.1, hb2.2]

/-- A fold of `range` cells is not zero in `ZMod r` once `4 ^ range ≤ r`. -/
theorem compute_split_scalar_ne_zero (r : Nat) (wnafs : List Nat) (range : Nat)
    (hn : 0 < range) (hr : 4 ^ range ≤ r) :
    (compute_split_scalar wnafs range : ZMod r) ≠ 0 := by
  rw [compute_split_scalar_cast]
  intro h
  rw [ZMod.intCast_zmod_eq_zero_iff_dvd] at h
  obtain ⟨hodd, hb⟩ := compute_split_scalar_int_bound wnafs range
  have hr2 : ((4 : Int) ^ range) ≤ (r : Int) := by exact_mod_cast hr
  have h0 := Int.eq_zero_of_abs_lt_dvd h (by linarith)
  have h1 := hodd hn
  rw [h0] at h1
  simp at h1

theorem low24_clear_iff (entry : Nat) :
    entry % 2 ^ 24 = 0 ↔ ∀ k, k < 24 → entry.testBit k = false := by
  constructor
  · intro h k hk
    have e := Nat.testBit_mod_two_pow entry 24 k
    rw [h, Nat.zero_testBit, decide_eq_true hk, Bool.true_and] at e
    exact e.symm
  · intro h
    apply Nat.eq_of_testBit_eq
    intro i
    rw [Nat.testBit_mod_two_pow, Nat.zero_testBit]
    by_cases hi : i < 24
    · rw [h i hi, Bool.and_false]
    · rw [decide_eq_false hi, Bool.false_and]

/-- C13, as stated, fails: the cell `1` has bit 24 clear and is folded with magnitude
3, and the cell `2 ^ 24` has bit 24 set and is folded with magnitude 1. -/
theorem split_scalar_step_bit24_counterexample :
    (1 : Nat).testBit 24 = false ∧ split_scalar_step [1] 0 (0 : Int) = 3 ∧
    (2 ^ 24 : Nat).testBit 24 = true ∧ split_scalar_step [2 ^ 24] 0 (0 : Int) = 1 := by
  decide

/-- C13, amended: for every digit cell, the fold step uses magnitude 3 exactly when one
of the low 24 bits (bits 0 to 23) of the cell is set and magnitude 1 when they are all
clear, and subtracts exactly when bit 31 is set and adds otherwise. -/
theorem split_scalar_step_bits {Fr : Type} [CommRing Fr] (wnafs : List Nat) (i : Nat)
    (result : Fr) :
    split_scalar_step wnafs i result
      = (if (wnafs.getD i 0).testBit 31 then
          4 * result - (if wnafs.getD i 0 % 2 ^ 24 = 0 then 1 else 3)
        else
          4 * result + (if wnafs.getD i 0 % 2 ^ 24 = 0 then 1 else 3)) ∧
    (wnafs.getD i 0 % 2 ^ 24 = 0 ↔ ∀ k, k < 24 → (wnafs.getD i 0).testBit k = false) := by
  refine ⟨?_, low24_clear_iff _⟩
  rw [split_scalar_step_eq]
  unfold digit_value
  rw [sign_bit_eq, land_low24]
  generalize wnafs.getD i 0 = e
  by_cases a : e % 16777216 = 0 <;> by_cases b : e.testBit 31 = true <;>
    simp [a, b] <;> ring

/-- C14: for every slice of `n` digit cells with decoded values `v_0, ..., v_(n-1)` in
`{1, -1, 3, -3}` (index 0 most significant), the fold starts from 0, each step takes
the accumulator to `4 * accumulator + v_i`, and the result is the sum of
`v_i * 4 ^ (n - 1 - i)` over `i < n` in the scalar ring; the fold of the empty slice
is 0. -/
theorem compute_split_scalar_fold {Fr : Type} [CommRing Fr] (wnafs : List Nat) (n : Nat) :
    (compute_split_scalar wnafs 0 : Fr) = 0 ∧
    (compute_split_scalar wnafs (n + 1) : Fr)
      = 4 * compute_split_scalar wnafs n + ((digit_value (wnafs.getD n 0) : Int) : Fr) ∧
    (compute_split_scalar wnafs n : Fr)
      = ∑ i ∈ Finset.range n,
          ((digit_value (wnafs.getD i 0) : Int) : Fr) * 4 ^ (n - 1 - i) ∧
    (digit_value (wnafs.getD n 0) = 1 ∨ digit_value (wnafs.getD n 0) = -1 ∨
      digit_value (wnafs.getD n 0) = 3 ∨ digit_value (wnafs.getD n 0) = -3) := by
  refine ⟨?_, ?_, compute_split_scalar_sum wnafs n, digit_value_cases _⟩
  · simp only [compute_split_scalar, forLoop]
  · simp only [compute_split_scalar, forLoop]
    exact split_scalar_step_eq wnafs n _

/-- C18: for every non-empty slice of `n` digit cells the fold, over the integers, is
odd and of absolute value at most `4 ^ n - 1`, and the fold in the scalar ring is its
image; hence in `ZMod r` with `4 ^ 126 ≤ r` (the scalar field of Grumpkin is one) the
126-cell and the 2-cell folds of `compress_native` are never zero, whatever the cells
contain. -/
theorem compute_split_scalar_odd (r : Nat) (wnafs : List Nat) (n : Nat) (hn : 0 < n)
    (hr : 4 ^ 126 ≤ r) :
    Odd (compute_split_scalar wnafs n : Int) ∧
    |(compute_split_scalar wnafs n : Int)| ≤ 4 ^ n - 1 ∧
    (compute_split_scalar wnafs n : ZMod r) = ((compute_split_scalar wnafs n : Int) : ZMod r) ∧
    (compute_split_scalar wnafs 126 : ZMod r) ≠ 0 ∧
    (compute_split_scalar (wnafs.drop 126) 2 : ZMod r) ≠ 0 := by
  obtain ⟨hodd, hb⟩ := compute_split_scalar_int_bound wnafs n
  refine ⟨Int.odd_iff.mpr (hodd hn), hb, compute_split_scalar_cast wnafs n,
    compute_split_scalar_ne_zero r wnafs 126 (by decide) hr,
    compute_split_scalar_ne_zero r (wnafs.drop 126) 2 (by decide) ?_⟩
  exact le_trans (by decide) hr

theorem compute_split_scalar_odd_witness :
    0 < 126 ∧ 4 ^ 126 ≤ grumpkin_fr_modulus ∧
    Odd (compute_split_scalar (List.replicate 255 0) 126 : Int) ∧
    (compute_split_scalar (List.replicate 255 0) 126 : ZMod grumpkin_fr_modulus) ≠ 0 :=
  ⟨by decide, by decide,
    (compute_split_scalar_odd grumpkin_fr_modulus (List.replicate 255 0) 126 (by decide)
      (by decide)).1,
    (compute_split_scalar_odd grumpkin_fr_modulus (List.replicate 255 0) 126 (by decide)
      (by decide)).2.2.2.1⟩

/-! ## `compress_native` on the inputs `0, 0` and on two tables -/

/-- The fold of zero cells: every cell counts `+1`. -/
theorem compute_split_scalar_zero_cells (m n : Nat) :
    3 * (compute_split_scalar (List.replicate m 0) n : Int) = 4 ^ n - 1 := by
  unfold compute_split_scalar
  induction n with
  | zero => simp only [forLoop, mul_zero, pow_zero, sub_self]
  | succ n ih =>
    have hcell : (List.replicate m 0).getD n 0 = 0 := by
      simp only [List.getD_eq_getElem?_getD, List.getElem?_replicate]
      split <;> rfl
    have hd : digit_value 0 = 1 := by decide
    simp only [forLoop]
    rw [split_scalar_step_eq, hcell, hd, pow_succ]
    push_cast
    linarith

/-- C11, as stated, fails: in `ZMod grumpkin_fr_modulus` the scalar that multiplies `G0`
for the inputs `0, 0` is not zero, for the routine that leaves the zeroed buffer as it
is (three times the fold of 126 zero cells is `4 ^ 126 - 1`) and for every other
decomposition routine. -/
theorem compress_native_scalar_nonzero_counterexample :
    3 * (compute_split_scalar (List.replicate 255 0) 126 : Int) = 4 ^ 126 - 1 ∧
    (compress_native_scalars (wide keep_buffer) 0 0).getD 0 0 ≠ 0 ∧
    ¬ ∃ fixed_wnaf, (compress_native_scalars (wide fixed_wnaf) 0 0).getD 0 0 = 0 := by
  have key : ∀ fixed_wnaf, (compress_native_scalars (wide fixed_wnaf) 0 0).getD 0 0 ≠ 0 := by
    intro fixed_wnaf
    unfold compress_native_scalars
    rw [grumpkin_scalars_eq]
    exact compute_split_scalar_ne_zero grumpkin_fr_modulus _ 126 (by decide) (by decide)
  refine ⟨compute_split_scalar_zero_cells 255 126, key keep_buffer, ?_⟩
  rintro ⟨fixed_wnaf, h⟩
  exact key fixed_wnaf h

/-- C11, amended: with `left = 0` and `right = 0`, `compress_native` returns the
x-coordinate of `normalize((lo * G0 + hi * G1) + (lo * G2 + hi * G3))`, where `lo` and
`hi` are the two segment scalars of the decomposition of `0`, the same pair for both
inputs; `lo` is an odd fold and is not zero in the scalar field (`4 ^ 126 ≤ r`). -/
theorem compress_native_zero {Fq : Type} [Zero Fq] (r : Nat) (ext : External Fq (ZMod r))
    (t : Tables Fq) (hr : 4 ^ 126 ≤ r) :
    compress_native ext t 0 0
      = (ext.normalize
          (ext.add
            (ext.add
              (ext.group_exponentiation_inner (get_generator t 0)
                (compute_split_scalar ((decompose ext 0).1.take 126) 126))
              (ext.group_exponentiation_inner (get_generator t 1)
                (compute_split_scalar (((decompose ext 0).1.drop 126).take 2) 2
                  + (if (decompose ext 0).2 then 1 else 0))))
            (ext.add
              (ext.group_exponentiation_inner (get_generator t 2)
                (compute_split_scalar ((decompose ext 0).1.take 126) 126))
              (ext.group_exponentiation_inner (get_generator t 3)
                (compute_split_scalar (((decompose ext 0).1.drop 126).take 2) 2
                  + (if (decompose ext 0).2 then 1 else 0)))))).x ∧
    (compute_split_scalar ((decompose ext 0).1.take 126) 126 : ZMod r) ≠ 0 := by
  refine ⟨?_, compute_split_scalar_ne_zero r _ 126 (by decide) hr⟩
  unfold compress_native compress_native_scalars
  simp only [grumpkin_scalars_eq]
  rfl

theorem compress_native_zero_witness :
    4 ^ 126 ≤ grumpkin_fr_modulus ∧
    (compute_split_scalar ((decompose (wide keep_buffer) 0).1.take 126) 126 :
      ZMod grumpkin_fr_modulus) ≠ 0 :=
  ⟨by decide,
    (compress_native_zero grumpkin_fr_modulus (wide keep_buffer) (init toy) (by decide)).2⟩

/-- C12: `compress_native` is a function of `(left, right)` and of the generators 0 to
3 only: for all field elements `(a, b)`, two runs on tables that agree on the
generators 0 to 3, whatever their ladders, hash ladders and other generators are,
return the same field element; in particular two runs on the same table do. -/
theorem compress_native_generators_only {Fq Fr : Type} [Zero Fq] [CommRing Fr]
    (ext : External Fq Fr) (t t2 : Tables Fq) (a b : Fq)
    (h : ∀ i, i < 4 → get_generator t i = get_generator t2 i) :
    compress_native ext t a b = compress_native ext t2 a b ∧
    compress_native ext t a b = compress_native ext t a b := by
  refine ⟨?_, rfl⟩
  unfold compress_native
  rw [h 0 (by decide), h 1 (by decide), h 2 (by decide), h 3 (by decide)]

theorem compress_native_generators_only_witness :
    (∀ i, i < 4 → get_generator (init toy) i
      = get_generator
          ({ generators := [⟨4, 3⟩, ⟨18, 18⟩, ⟨6, 3⟩, ⟨9, 16⟩, ⟨0, 0⟩], ladders := [],
             hash_ladders := [[fixed_base_ladder.zero]] } : Tables (ZMod 19)) i) ∧
    compress_native toy (init toy) 5 7
      = compress_native toy
          ({ generators := [⟨4, 3⟩, ⟨18, 18⟩, ⟨6, 3⟩, ⟨9, 16⟩, ⟨0, 0⟩], ladders := [],
             hash_ladders := [[fixed_base_ladder.zero]] } : Tables (ZMod 19)) 5 7 :=
  ⟨by decide,
    (compress_native_generators_only toy (init toy) _ 5 7 (by decide)).1⟩

/-! ## The interpolation in the digit -/

/-- The interpolation of an entry in closed form, at the four digits. -/
theorem ladder_entry_of_digit_interpolation {Fq : Type} [Field Fq]
    (o t : affine_element Fq) (h2 : (2 : Fq) ≠ 0) (h3 : (3 : Fq) ≠ 0)
    (hx : (ladder_entry_of o t).one.x ≠ (ladder_entry_of o t).three.x) :
    (ladder_entry_of o t).q_x_1 * 1 ^ 2 + (ladder_entry_of o t).q_x_2
      = (ladder_entry_of o t).one.x ∧
    (ladder_entry_of o t).q_x_1 * (-1) ^ 2 + (ladder_entry_of o t).q_x_2
      = (ladder_entry_of o t).one.x ∧
    (ladder_entry_of o t).q_x_1 * 3 ^ 2 + (ladder_entry_of o t).q_x_2
      = (ladder_entry_of o t).three.x ∧
    (ladder_entry_of o t).q_x_1 * (-3) ^ 2 + (ladder_entry_of o t).q_x_2
      = (ladder_entry_of o t).three.x ∧
    ((ladder_entry_of o t).q_y_1 * (ladder_entry_of o t).one.x
        + (ladder_entry_of o t).q_y_2) * 1 = (ladder_entry_of o t).one.y ∧
    ((ladder_entry_of o t).q_y_1 * (ladder_entry_of o t).three.x
        + (ladder_entry_of o t).q_y_2) * 3 = (ladder_entry_of o t).three.y ∧
    ((ladder_entry_of o t).q_y_1 * (ladder_entry_of o t).one.x
        + (ladder_entry_of o t).q_y_2) * (-1) = -(ladder_entry_of o t).one.y ∧
    ((ladder_entry_of o t).q_y_1 * (ladder_entry_of o t).three.x
        + (ladder_entry_of o t).q_y_2) * (-3) = -(ladder_entry_of o t).three.y := by
  obtain ⟨a1, a2, a3, a4⟩ := ladder_entry_of_interpolation o t h2 h3 hx
  refine ⟨?_, ?_, ?_, ?_, ?_, ?_, ?_, ?_⟩
  · show (ladder_entry_of o t).q_x_1 * 1 ^ 2 + (ladder_entry_of o t).q_x_2 = o.x
    linear_combination a1
  · show (ladder_entry_of o t).q_x_1 * (-1) ^ 2 + (ladder_entry_of o t).q_x_2 = o.x
    linear_combination a1
  · show (ladder_entry_of o t).q_x_1 * 3 ^ 2 + (ladder_entry_of o t).q_x_2 = t.x
    linear_combination a3
  · show (ladder_entry_of o t).q_x_1 * (-3) ^ 2 + (ladder_entry_of o t).q_x_2 = t.x
    linear_combination a3
  · show ((ladder_entry_of o t).q_y_1 * o.x + (ladder_entry_of o t).q_y_2) * 1 = o.y
    linear_combination a2
  · show ((ladder_entry_of o t).q_y_1 * t.x + (ladder_entry_of o t).q_y_2) * 3 = t.y
    linear_combination a4
  · show ((ladder_entry_of o t).q_y_1 * o.x + (ladder_entry_of o t).q_y_2) * (-1) = -o.y
    linear_combination (-1 : Fq) * a2
  · show ((ladder_entry_of o t).q_y_1 * t.x + (ladder_entry_of o t).q_y_2) * (-3) = -t.y
    linear_combination (-1 : Fq) * a4

/-- C15: for every entry `m` of a ladder built by `compute_fixed_base_ladder`, with
`one.x ≠ three.x` and 2 and 3 invertible in the base field, `q_x_1 * d ^ 2 + q_x_2` is
`one.x` for `d = 1, -1` and `three.x` for `d = 3, -3`, and `(q_y_1 * x_d + q_y_2) * d`
is `one.y` for `d = 1`, `three.y` for `d = 3`, and the negated `y` for `d = -1` and
`d = -3`. -/
theorem compute_fixed_base_ladder_digit_interpolation {Fq Fr : Type} [Field Fq]
    (ext : External Fq Fr) (generator : affine_element Fq)
    (ladder : List (fixed_base_ladder Fq)) (hl : ladder.length = quad_length)
    (m : Nat) (hm : m < quad_length) (h2 : (2 : Fq) ≠ 0) (h3 : (3 : Fq) ≠ 0)
    (e : fixed_base_ladder Fq)
    (he : e = (compute_fixed_base_ladder ext generator ladder).getD m fixed_base_ladder.zero)
    (hx : e.one.x ≠ e.three.x) :
    e.q_x_1 * 1 ^ 2 + e.q_x_2 = e.one.x ∧
    e.q_x_1 * (-1) ^ 2 + e.q_x_2 = e.one.x ∧
    e.q_x_1 * 3 ^ 2 + e.q_x_2 = e.three.x ∧
    e.q_x_1 * (-3) ^ 2 + e.q_x_2 = e.three.x ∧
    (e.q_y_1 * e.one.x + e.q_y_2) * 1 = e.one.y ∧
    (e.q_y_1 * e.three.x + e.q_y_2) * 3 = e.three.y ∧
    (e.q_y_1 * e.one.x + e.q_y_2) * (-1) = -e.one.y ∧
    (e.q_y_1 * e.three.x + e.q_y_2) * (-3) = -e.three.y := by
  rw [compute_fixed_base_ladder_entry_of ext generator ladder hl m hm] at he
  subst he
  exact ladder_entry_of_digit_interpolation _ _ h2 h3 hx

theorem compute_fixed_base_ladder_digit_interpolation_witness :
    (List.replicate 128 (fixed_base_ladder.zero : fixed_base_ladder (ZMod 19))).length
      = quad_length ∧ 127 < quad_length ∧ (2 : ZMod 19) ≠ 0 ∧ (3 : ZMod 19) ≠ 0 ∧
    (⟨⟨4, 3⟩, ⟨6, 3⟩, 5, 18, 18, 7⟩ : fixed_base_ladder (ZMod 19))
      = (compute_fixed_base_ladder toy ⟨4, 3⟩
          (List.replicate 128 fixed_base_ladder.zero)).getD 127 fixed_base_ladder.zero ∧
    (4 : ZMod 19) ≠ 6 ∧
    ((18 : ZMod 19) * 6 + 7) * (-3) = -3 :=
  ⟨List.length_replicate _ _, by decide, by decide, by decide, toy_built_entry.symm,
    by decide,
    (compute_fixed_base_ladder_digit_interpolation toy ⟨4, 3⟩
      (List.replicate 128 fixed_base_ladder.zero) (List.length_replicate _ _) 127
      (by decide) (by decide) (by decide) ⟨⟨4, 3⟩, ⟨6, 3⟩, 5, 18, 18, 7⟩
      toy_built_entry.symm (by decide)).2.2.2.2.2.2.2⟩

/-! ## The validity of the start offset -/

/-- C16: for `num_bits` representable in `size_t`, the start offset
`quad_length - n - 1` computed by `get_ladder` and by `get_hash_ladder` is an index
below 128 if and only if `num_bits ≤ 255`; for `num_bits = 256` the window count is
128, the subtraction wraps to `2 ^ 64 - 1`, and the address is outside the 128-entry
ladder of every table. -/
theorem ladder_offset_valid_iff {Fq : Type} (t : Tables Fq) (g : Nat) (num_bits : Nat)
    (h : num_bits < size_t_mod) :
    (ladder_offset (get_ladder_n num_bits) < 128 ↔ num_bits ≤ 255) ∧
    (ladder_offset (get_hash_ladder_n num_bits) < 128 ↔ num_bits ≤ 255) ∧
    get_ladder_n 256 = 128 ∧ get_hash_ladder_n 256 = 128 ∧
    ladder_offset 128 = 2 ^ 64 - 1 ∧
    get_ladder t g 256 = none ∧ get_hash_ladder t g 256 = none := by
  have hq : quad_length = 128 := rfl
  have h1 : get_ladder_n 256 = 128 := by decide
  have h2 : ladder_offset 128 = 2 ^ 64 - 1 := by decide
  have hiff : ladder_offset (get_ladder_n num_bits) < 128 ↔ num_bits ≤ 255 := by
    have hs : size_t_mod = 18446744073709551616 := by decide
    rw [hs] at h
    rcases get_ladder_n_eq num_bits (by rw [hs]; exact h) with e | ⟨e0, e⟩
    · rw [e]
      unfold ladder_offset
      rw [hq, hs]
      omega
    · rw [e, e0]
      unfold ladder_offset
      rw [hq, hs]
      omega
  refine ⟨hiff, hiff, h1, h1, h2, ?_, ?_⟩
  · unfold get_ladder address_of
    simp only [h1, h2]
    rw [if_neg (fun hh => absurd hh.2 (by decide))]
  · unfold get_hash_ladder address_of
    have h1b : get_hash_ladder_n 256 = 128 := h1
    simp only [h1b, h2]
    rw [if_neg (fun hh => absurd hh.2 (by decide))]

theorem ladder_offset_valid_iff_witness :
    300 < size_t_mod ∧ (ladder_offset (get_ladder_n 300) < 128 ↔ 300 ≤ 255) ∧
    get_ladder (init toy) 5 256 = none :=
  ⟨by decide, (ladder_offset_valid_iff (init toy) 5 300 (by decide)).1,
    (ladder_offset_valid_iff (init toy) 5 300 (by decide)).2.2.2.2.2.1⟩

/-! ## The two ends of the suffix `get_ladder` returns -/

theorem getD_drop {α : Type} (l : List α) (i j : Nat) (d : α) :
    (l.drop i).getD j d = l.getD (i + j) d := by
  simp only [List.getD_eq_getElem?_getD, List.getElem?_drop]

/-- C19: for every generator index `g < 128` and every `num_bits ≤ 255`, with `n` the
window count for `num_bits`, the suffix `get_ladder(g, num_bits)` returns has `n + 1`
entries, the first with `one = affine(4 ^ n * G_g)` and the last with
`one = affine(G_g)` and `three = affine(3 * G_g)`, where `G_g = get_generator(g)`. The
curve operations are assumed correct only on the valid elements (those that encode
points of the curve), and the derived generators are assumed to convert to such. -/
theorem get_ladder_ends {Fq Fr Pt : Type} [Field Fq] [AddCommGroup Pt]
    (ext : External Fq Fr) (valid : element Fq → Prop) (pt : element Fq → Pt)
    (affine : Pt → affine_element Fq) (hc : ext.Correct valid pt affine)
    (hgen : ∀ i : Fin num_generators,
      valid (ext.affine_to_jacobian (ext.derive_generators num_generators i)))
    (g : Nat) (hg : g < 128) (num_bits : Nat) (hb : num_bits ≤ 255) :
    ∃ l, get_ladder (init ext) g num_bits = some l ∧
      l.length = get_ladder_n num_bits + 1 ∧
      (l.getD 0 fixed_base_ladder.zero).one
        = affine ((4 ^ get_ladder_n num_bits) •
            pt (ext.affine_to_jacobian (get_generator (init ext) g))) ∧
      (l.getD (get_ladder_n num_bits) fixed_base_ladder.zero).one
        = affine (pt (ext.affine_to_jacobian (get_generator (init ext) g))) ∧
      (l.getD (get_ladder_n num_bits) fixed_base_ladder.zero).three
        = affine (3 • pt (ext.affine_to_jacobian (get_generator (init ext) g))) := by
  have hq : quad_length = 128 := rfl
  obtain ⟨hn, hget⟩ := get_ladder_init ext g hg num_bits hb
  have hlen := init_ladders_row_length ext g hg
  have hrow := init_ladders_row ext g hg
  have hentry : ∀ m, m < quad_length →
      ((init ext).ladders.getD g []).getD m fixed_base_ladder.zero
        = ladder_entry_of
            (affine ((4 ^ (quad_length - 1 - m)) •
              pt (ext.affine_to_jacobian (get_generator (init ext) g))))
            (affine ((3 * 4 ^ (quad_length - 1 - m)) •
              pt (ext.affine_to_jacobian (get_generator (init ext) g)))) := by
    intro m hm
    rw [hrow]
    exact compute_fixed_base_ladder_entry_correct ext valid pt affine hc _
      (get_generator_init_valid ext valid hgen g hg) _ (List.length_replicate _ _) m hm
  rw [hq] at hn
  refine ⟨_, hget, ?_, ?_, ?_, ?_⟩
  · rw [List.length_drop, hlen, hq]; omega
  · rw [getD_drop, hentry _ (by rw [hq]; omega)]
    have e : quad_length - 1 - (quad_length - get_ladder_n num_bits - 1 + 0)
        = get_ladder_n num_bits := by rw [hq]; omega
    rw [e]
    rfl
  · rw [getD_drop, hentry _ (by rw [hq]; omega)]
    have e : quad_length - 1
        - (quad_length - get_ladder_n num_bits - 1 + get_ladder_n num_bits) = 0 := by
      rw [hq]; omega
    rw [e, pow_zero, one_smul]
    rfl
  · rw [getD_drop, hentry _ (by rw [hq]; omega)]
    have e : quad_length - 1
        - (quad_length - get_ladder_n num_bits - 1 + get_ladder_n num_bits) = 0 := by
      rw [hq]; omega
    rw [e, pow_zero, mul_one]
    rfl

theorem get_ladder_ends_witness :
    jac.Correct jac_valid jac_pt jac_affine ∧
    (∀ i : Fin num_generators,
      jac_valid (jac.affine_to_jacobian (jac.derive_generators num_generators i))) ∧
    3 < 128 ∧ 254 ≤ 255 ∧
    ∃ l, get_ladder (init jac) 3 254 = some l ∧
      l.length = get_ladder_n 254 + 1 ∧
      (l.getD 0 fixed_base_ladder.zero).one
        = jac_affine ((4 ^ get_ladder_n 254) •
            jac_pt (jac.affine_to_jacobian (get_generator (init jac) 3))) ∧
      (l.getD (get_ladder_n 254) fixed_base_ladder.zero).one
        = jac_affine (jac_pt (jac.affine_to_jacobian (get_generator (init jac) 3))) ∧
      (l.getD (get_ladder_n 254) fixed_base_ladder.zero).three
        = jac_affine (3 • jac_pt (jac.affine_to_jacobian (get_generator (init jac) 3))) :=
  ⟨jac_correct, jac_generators_valid, by decide, by decide,
    get_ladder_ends jac jac_valid jac_pt jac_affine jac_correct jac_generators_valid 3
      (by decide) 254 (by decide)⟩

/-! ## The rows `init` does not write -/

/-- C20: `init` writes `hash_ladders[k]` only for `k < 64`: for `64 ≤ k < 128` the row
stays in its initial zero state, so `get_hash_ladder(k, num_bits)` returns zero
entries, derived from no generator, even though `k < 128`; and in the tables `init`
leaves, the generators are the derived ones and the ladders are the ones the first
loop built, the second loop changing neither. -/
theorem init_hash_ladders_untouched {Fq Fr : Type} [Field Fq] (ext : External Fq Fr)
    (k : Nat) (h1 : 64 ≤ k) (h2 : k < 128) (num_bits : Nat) (hb : num_bits ≤ 255) :
    (init ext).hash_ladders.getD k [] = List.replicate 128 fixed_base_ladder.zero ∧
    get_hash_ladder (init ext) k num_bits
      = some (List.replicate (get_hash_ladder_n num_bits + 1) fixed_base_ladder.zero) ∧
    (init ext).generators = List.ofFn (ext.derive_generators num_generators) ∧
    (init ext).ladders
      = forLoop num_generators (fun i ladders =>
          ladders.set i
            (compute_fixed_base_ladder ext
              ((List.ofFn (ext.derive_generators num_generators)).getD i affine_element.zero)
              (ladders.getD i []))) zero_table := by
  have hq : quad_length = 128 := rfl
  have hn : num_generators = 128 := rfl
  obtain ⟨_, _, h3⟩ := init_hash_ladders_rows ext
  have hrow : (init ext).hash_ladders.getD k []
      = List.replicate 128 fixed_base_ladder.zero := by
    rw [h3 k (by rw [hn]; omega)]
    simp only [zero_table, List.getD_eq_getElem?_getD, List.getElem?_replicate]
    rw [if_pos (by rw [hn]; exact h2)]
    rfl
  refine ⟨hrow, ?_, init_generators_eq ext, init_ladders_eq ext⟩
  have hlt : get_hash_ladder_n num_bits < quad_length := by
    rcases get_ladder_n_eq num_bits (by unfold size_t_mod; omega) with h | ⟨_, h⟩
    · have h' : get_hash_ladder_n num_bits = (num_bits - 1 + 1) / 2 := h
      rw [h', hq]; omega
    · have h' : get_hash_ladder_n num_bits = 0 := h
      rw [h', hq]; omega
  unfold get_hash_ladder address_of
  simp only [ladder_offset_eq _ hlt]
  have e : 128 - (quad_length - get_hash_ladder_n num_bits - 1)
      = get_hash_ladder_n num_bits + 1 := by
    rw [hq] at hlt ⊢
    omega
  rw [if_pos ⟨by rw [hn]; exact h2, by rw [hq] at hlt ⊢; omega⟩, hrow, List.drop_replicate, e]

theorem init_hash_ladders_untouched_witness :
    64 ≤ 64 ∧ 64 < 128 ∧ 255 ≤ 255 ∧
    (init toy).hash_ladders.getD 64 [] = List.replicate 128 fixed_base_ladder.zero ∧
    get_hash_ladder (init toy) 64 255
      = some (List.replicate (get_hash_ladder_n 255 + 1) fixed_base_ladder.zero) :=
  ⟨by decide, by decide, by decide,
    (init_hash_ladders_untouched toy 64 (by decide) (by decide) 255 (by decide)).1,
    (init_hash_ladders_untouched toy 64 (by decide) (by decide) 255 (by decide)).2.1⟩

/-! ## The ladder walk over a hash ladder -/

/-- One term of a walk over an entry that holds `4 ^ i * G` and `3 * 4 ^ i * G`: the
value of the cell times `4 ^ i`, times `G`. -/
theorem walk_term_eq {Fq Fr Pt : Type} [Field Fq] [AddCommGroup Pt] (ext : External Fq Fr)
    (pt : element Fq → Pt) (affine : Pt → affine_element Fq)
    (hround : ∀ P : Pt, P ≠ 0 → pt (ext.affine_to_jacobian (affine P)) = P)
    (row : List (fixed_base_ladder Fq)) (cells : List Nat) (j i : Nat) (G : Pt)
    (hrow : row.getD j fixed_base_ladder.zero
      = ladder_entry_of (affine ((4 ^ i) • G)) (affine ((3 * 4 ^ i) • G)))
    (h1 : (4 ^ i) • G ≠ 0) (h3 : (3 * 4 ^ i) • G ≠ 0) :
    walk_term ext pt row cells j
      = (digit_value (cells.getD j 0) * ((4 ^ i : Nat) : Int)) • G := by
  have e1 := hround _ h1
  have e3 := hround _ h3
  have o : (ladder_entry_of (affine ((4 ^ i) • G)) (affine ((3 * 4 ^ i) • G))).one
      = affine ((4 ^ i) • G) := rfl
  have t : (ladder_entry_of (affine ((4 ^ i) • G)) (affine ((3 * 4 ^ i) • G))).three
      = affine ((3 * 4 ^ i) • G) := rfl
  have c3 : (3 : Int) * ((4 ^ i : Nat) : Int) = ((3 * 4 ^ i : Nat) : Int) := by push_cast; ring
  unfold walk_term select_point digit_value
  rw [hrow]
  by_cases a : ((cells.getD j 0 &&& 0xffffff) == 0) = true <;>
    by_cases b : (((cells.getD j 0 >>> 31) &&& 1) == 1) = true <;>
    simp only [a, b, if_true, if_false, Bool.false_eq_true, o, t, e1, e3]
  · rw [neg_one_mul, neg_smul, natCast_zsmul]
  · rw [one_mul, natCast_zsmul]
  · rw [show (-3 : Int) * ((4 ^ i : Nat) : Int) = -((3 * 4 ^ i : Nat) : Int) by
      rw [← c3]; ring, neg_smul, natCast_zsmul]
  · rw [c3, natCast_zsmul]

/-- The entries of the hash ladder `k < 64` of `init`, in closed form: position
`j < 126` holds window `125 - j` of generator `2 k`, positions 126 and 127 hold
windows 1 and 0 of generator `2 k + 1`. -/
theorem init_hash_ladder_entry {Fq Fr Pt : Type} [Field Fq] [AddCommGroup Pt]
    (ext : External Fq Fr) (valid : element Fq → Prop) (pt : element Fq → Pt)
    (affine : Pt → affine_element Fq) (hc : ext.Correct valid pt affine)
    (hgen : ∀ i : Fin num_generators,
      valid (ext.affine_to_jacobian (ext.derive_generators num_generators i)))
    (k : Nat) (hk : k < 64) :
    (∀ j, j < 126 →
      ((init ext).hash_ladders.getD k []).getD j fixed_base_ladder.zero
        = ladder_entry_of
            (affine ((4 ^ (125 - j)) •
              pt (ext.affine_to_jacobian (get_generator (init ext) (2 * k)))))
            (affine ((3 * 4 ^ (125 - j)) •
              pt (ext.affine_to_jacobian (get_generator (init ext) (2 * k)))))) ∧
    (∀ j, j < 2 →
      ((init ext).hash_ladders.getD k []).getD (126 + j) fixed_base_ladder.zero
        = ladder_entry_of
            (affine ((4 ^ (1 - j)) •
              pt (ext.affine_to_jacobian (get_generator (init ext) (2 * k + 1)))))
            (affine ((3 * 4 ^ (1 - j)) •
              pt (ext.affine_to_jacobian (get_generator (init ext) (2 * k + 1)))))) := by
  have hq : quad_length = 128 := rfl
  have hn : num_generators = 128 := rfl
  have hf : first_generator_segment = 126 := rfl
  have hs : second_generator_segment = 2 := rfl
  obtain ⟨_, h2, _⟩ := init_hash_ladders_rows ext
  obtain ⟨_, r2, r3⟩ := hash_row_spec (init ext).ladders k
    (List.replicate quad_length fixed_base_ladder.zero) (List.length_replicate _ _)
  have hrow := h2 k (by rw [hn]; omega)
  have hentry : ∀ g m, g < num_generators → m < quad_length →
      get2 (init ext).ladders g m
        = ladder_entry_of
            (affine ((4 ^ (quad_length - 1 - m)) •
              pt (ext.affine_to_jacobian (get_generator (init ext) g))))
            (affine ((3 * 4 ^ (quad_length - 1 - m)) •
              pt (ext.affine_to_jacobian (get_generator (init ext) g)))) := by
    intro g m hg hm
    unfold get2
    rw [init_ladders_row ext g hg]
    exact compute_fixed_base_ladder_entry_correct ext valid pt affine hc _
      (get_generator_init_valid ext valid hgen g hg) _ (List.length_replicate _ _) m hm
  constructor
  · intro j hj
    rw [hrow, r2 j (by rw [hf]; exact hj), hentry _ _ (by rw [hn]; omega)
      (by rw [hq, hf]; omega), Nat.mul_comm k 2]
    have e : quad_length - 1 - (j + (quad_length - first_generator_segment)) = 125 - j := by
      rw [hq, hf]; omega
    rw [e]
  · intro j hj
    have r := r3 j (by rw [hs]; exact hj)
    rw [hf, Nat.add_comm j 126] at r
    rw [hrow, r, hentry _ _ (by rw [hn]; omega) (by rw [hq, hs]; omega), Nat.mul_comm k 2]
    have e : quad_length - 1 - (j + (quad_length - second_generator_segment)) = 1 - j := by
      rw [hq, hs]; omega
    rw [e]

theorem toy_windows_ne_zero (x : ZMod 13) (hx : x ≠ 0) (i : Nat) :
    (4 ^ i) • x ≠ 0 ∧ (3 * 4 ^ i) • x ≠ 0 := by
  have h4 : ((4 ^ i : Nat) : ZMod 13) ≠ 0 := by
    push_cast
    exact pow_ne_zero i (by decide)
  have h3 : ((3 * 4 ^ i : Nat) : ZMod 13) ≠ 0 := by
    push_cast
    exact mul_ne_zero (by decide) (pow_ne_zero i (by decide))
  rw [nsmul_eq_mul, nsmul_eq_mul]
  exact ⟨mul_ne_zero h4 hx, mul_ne_zero h3 hx⟩

/-- C17: for every pair index `k < 64` and every 128 digit cells, the ladder walk over
hash ladder `k` (at each position the point `one` or `three` of the entry, by the
magnitude of the cell, negated by its sign, all 128 summed) is
`fold(v[0..126)) * G_(2k) + fold(v[126..128)) * G_(2k+1)`, and so it is the point of
the sum of the two group exponentiations `compress_native` performs on these folds
before the skew correction. The curve operations are assumed correct only on the valid
elements (those that encode points of the curve), the derived generators convert to
valid elements, an affine point other than the identity reads back as itself, the
windows of the two generators are not the identity, and the group exponentiation of a
point that converts to a valid element is valid, the multiplication by the scalar. -/
theorem hash_ladder_walk {Fq Fr Pt : Type} [Field Fq] [CommRing Fr] [AddCommGroup Pt]
    (ext : External Fq Fr) (valid : element Fq → Prop) (pt : element Fq → Pt)
    (affine : Pt → affine_element Fq) (hc : ext.Correct valid pt affine)
    (hgen : ∀ i : Fin num_generators,
      valid (ext.affine_to_jacobian (ext.derive_generators num_generators i)))
    (hround : ∀ P : Pt, P ≠ 0 → pt (ext.affine_to_jacobian (affine P)) = P)
    (hexp : ∀ (P : affine_element Fq) (z : Int), valid (ext.affine_to_jacobian P) →
      valid (ext.group_exponentiation_inner P (z : Fr)) ∧
      pt (ext.group_exponentiation_inner P (z : Fr)) = z • pt (ext.affine_to_jacobian P))
    (k : Nat) (hk : k < 64)
    (hnz0 : ∀ i, i < 128 →
      (4 ^ i) • pt (ext.affine_to_jacobian (get_generator (init ext) (2 * k))) ≠ 0 ∧
      (3 * 4 ^ i) • pt (ext.affine_to_jacobian (get_generator (init ext) (2 * k))) ≠ 0)
    (hnz1 : ∀ i, i < 128 →
      (4 ^ i) • pt (ext.affine_to_jacobian (get_generator (init ext) (2 * k + 1))) ≠ 0 ∧
      (3 * 4 ^ i) • pt (ext.affine_to_jacobian (get_generator (init ext) (2 * k + 1))) ≠ 0)
    (cells : List Nat) :
    ladder_walk ext pt ((init ext).hash_ladders.getD k []) cells 128
      = (compute_split_scalar cells 126 : Int) •
          pt (ext.affine_to_jacobian (get_generator (init ext) (2 * k)))
        + (compute_split_scalar (cells.drop 126) 2 : Int) •
          pt (ext.affine_to_jacobian (get_generator (init ext) (2 * k + 1))) ∧
    ladder_walk ext pt ((init ext).hash_ladders.getD k []) cells 128
      = pt (ext.add
          (ext.group_exponentiation_inner (get_generator (init ext) (2 * k))
            (compute_split_scalar cells 126))
          (ext.group_exponentiation_inner (get_generator (init ext) (2 * k + 1))
            (compute_split_scalar (cells.drop 126) 2))) := by
  obtain ⟨hA, hB⟩ := init_hash_ladder_entry ext valid pt affine hc hgen k hk
  have T : ∀ j, j < 126 →
      walk_term ext pt ((init ext).hash_ladders.getD k []) cells j
        = (digit_value (cells.getD j 0) * ((4 ^ (125 - j) : Nat) : Int)) •
            pt (ext.affine_to_jacobian (get_generator (init ext) (2 * k))) := fun j hj =>
    walk_term_eq ext pt affine hround _ cells j (125 - j) _ (hA j hj)
      (hnz0 (125 - j) (by omega)).1 (hnz0 (125 - j) (by omega)).2
  have T126 := walk_term_eq ext pt affine hround _ cells (126 + 0) (1 - 0) _
    (hB 0 (by decide)) (hnz1 (1 - 0) (by decide)).1 (hnz1 (1 - 0) (by decide)).2
  have T127 := walk_term_eq ext pt affine hround _ cells (126 + 1) (1 - 1) _
    (hB 1 (by decide)) (hnz1 (1 - 1) (by decide)).1 (hnz1 (1 - 1) (by decide)).2
  have hlo : (compute_split_scalar cells 126 : Int)
      = ∑ j ∈ Finset.range 126,
          digit_value (cells.getD j 0) * ((4 ^ (125 - j) : Nat) : Int) := by
    rw [compute_split_scalar_sum]
    apply Finset.sum_congr rfl
    intro j _
    push_cast
    rfl
  have hhi : (compute_split_scalar (cells.drop 126) 2 : Int)
      = digit_value (cells.getD (126 + 0) 0) * ((4 ^ (1 - 0) : Nat) : Int)
        + digit_value (cells.getD (126 + 1) 0) * ((4 ^ (1 - 1) : Nat) : Int) := by
    rw [compute_split_scalar_sum, Finset.sum_range_succ, Finset.sum_range_succ,
      Finset.sum_range_zero, zero_add, getD_drop, getD_drop]
    push_cast
    rfl
  have first : ladder_walk ext pt ((init ext).hash_ladders.getD k []) cells 128
      = (compute_split_scalar cells 126 : Int) •
          pt (ext.affine_to_jacobian (get_generator (init ext) (2 * k)))
        + (compute_split_scalar (cells.drop 126) 2 : Int) •
          pt (ext.affine_to_jacobian (get_generator (init ext) (2 * k + 1))) := by
    unfold ladder_walk
    rw [show (128 : Nat) = 126 + 1 + 1 from rfl, Finset.sum_range_succ,
      Finset.sum_range_succ, Finset.sum_congr rfl (fun j hj => T j (Finset.mem_range.mp hj)),
      ← Finset.sum_smul, ← hlo, T126, T127, add_assoc, ← add_smul, ← hhi]
  have hn : num_generators = 128 := rfl
  have x0 := hexp (get_generator (init ext) (2 * k)) (compute_split_scalar cells 126 : Int)
    (get_generator_init_valid ext valid hgen (2 * k) (by rw [hn]; omega))
  have x1 := hexp (get_generator (init ext) (2 * k + 1))
    (compute_split_scalar (cells.drop 126) 2 : Int)
    (get_generator_init_valid ext valid hgen (2 * k + 1) (by rw [hn]; omega))
  refine ⟨first, ?_⟩
  rw [first, @compute_split_scalar_cast Fr _ cells 126,
    @compute_split_scalar_cast Fr _ (cells.drop 126) 2, hc.pt_add _ _ x0.1 x1.1, x0.2, x1.2]

theorem hash_ladder_walk_witness :
    jac.Correct jac_valid jac_pt jac_affine ∧
    (∀ i : Fin num_generators,
      jac_valid (jac.affine_to_jacobian (jac.derive_generators num_generators i))) ∧
    (∀ P : ZMod 13, P ≠ 0 → jac_pt (jac.affine_to_jacobian (jac_affine P)) = P) ∧
    (∀ (P : affine_element (ZMod 19)) (z : Int), jac_valid (jac.affine_to_jacobian P) →
      jac_valid (jac.group_exponentiation_inner P (z : ZMod 13)) ∧
      jac_pt (jac.group_exponentiation_inner P (z : ZMod 13))
        = z • jac_pt (jac.affine_to_jacobian P)) ∧
    0 < 64 ∧
    (∀ i, i < 128 →
      (4 ^ i) • jac_pt (jac.affine_to_jacobian (get_generator (init jac) (2 * 0))) ≠ 0 ∧
      (3 * 4 ^ i) • jac_pt (jac.affine_to_jacobian (get_generator (init jac) (2 * 0))) ≠ 0) ∧
    (∀ i, i < 128 →
      (4 ^ i) • jac_pt (jac.affine_to_jacobian (get_generator (init jac) (2 * 0 + 1))) ≠ 0 ∧
      (3 * 4 ^ i) •
        jac_pt (jac.affine_to_jacobian (get_generator (init jac) (2 * 0 + 1))) ≠ 0) ∧
    ladder_walk jac jac_pt ((init jac).hash_ladders.getD 0 []) [1, 2147483648, 0] 128
      = (compute_split_scalar [1, 2147483648, 0] 126 : Int) •
          jac_pt (jac.affine_to_jacobian (get_generator (init jac) (2 * 0)))
        + (compute_split_scalar (List.drop 126 [1, 2147483648, 0]) 2 : Int) •
          jac_pt (jac.affine_to_jacobian (get_generator (init jac) (2 * 0 + 1))) :=
  ⟨jac_correct, jac_generators_valid, jac_round, jac_exp, by decide,
    fun i _ => by
      rw [jac_generator_pts.1]
      exact toy_windows_ne_zero 1 (by decide) i,
    fun i _ => by
      rw [jac_generator_pts.2]
      exact toy_windows_ne_zero 2 (by decide) i,
    (hash_ladder_walk jac jac_valid jac_pt jac_affine jac_correct jac_generators_valid
      jac_round jac_exp 0 (by decide)
      (fun i _ => by
        rw [jac_generator_pts.1]
        exact toy_windows_ne_zero 1 (by decide) i)
      (fun i _ => by
        rw [jac_generator_pts.2]
        exact toy_windows_ne_zero 2 (by decide) i)
      [1, 2147483648, 0]).1⟩

end group_utils
